import Mathlib

/-!
# go-pyreqs: import extraction, alias mapping and version resolution

A shallow embedding of `pyreqs/pyreqs.go`.

* Go strings are modelled as lists of Unicode characters (`Str`); the text read
  from disk is taken to be valid UTF-8.  Every separator the program splits on
  (line feed, space, comma, dot, colon) is a one-byte character, so splitting
  the character list is splitting the bytes.
* A Go run-time panic and an I/O error are explicit results (`Failure`).
* The file tree handed to `filepath.Walk` is a value of type `Node`.
* The goroutines of `GetRequirementsLocal` are a transition system that is run
  along an arbitrary schedule.
-/

namespace Pyreqs

/-- A Go string, as the list of its characters. -/
abbrev Str := List Char

/-! ## The Go library functions the program calls -/

/-- The predicate `unicode.IsSpace`: the characters `strings.TrimSpace` removes. -/
def isSpace (c : Char) : Bool :=
  c == '\t' || c == '\n' || c == '\x0b' || c == '\x0c' || c == '\r' || c == ' ' ||
  c.toNat == 0x85 || c.toNat == 0xA0 || c.toNat == 0x1680 ||
  (0x2000 ≤ c.toNat && c.toNat ≤ 0x200a) ||
  c.toNat == 0x2028 || c.toNat == 0x2029 || c.toNat == 0x202f || c.toNat == 0x205f ||
  c.toNat == 0x3000

/-- The class `\s` of Go regular expressions: tab, line feed, form feed, carriage return
and space. -/
def reSpace (c : Char) : Bool :=
  c == '\t' || c == '\n' || c == '\x0c' || c == '\r' || c == ' '

/-- The function `strings.TrimSpace`. -/
def TrimSpace (s : Str) : Str :=
  ((s.dropWhile isSpace).reverse.dropWhile isSpace).reverse

/-- The function `strings.Contains(s, sep)` for a separator of one character. -/
def Contains (s : Str) (sep : Char) : Bool :=
  s.contains sep

/-- The function `strings.Split(s, sep)` for a separator of one character: the pieces
between the separators, a single empty piece for the empty string. -/
def Split : Str → Char → List Str
  | [], _ => [[]]
  | c :: cs, sep =>
    if c = sep then [] :: Split cs sep
    else
      match Split cs sep with
      | [] => [[c]]
      | p :: ps => (c :: p) :: ps

/-- Whether `s` begins with `p` (`strings.HasPrefix`). -/
def startsWith (p s : Str) : Bool :=
  s.take p.length == p

/-- Whether `p` occurs somewhere inside the string. -/
def hasSub (p : Str) : Str → Bool
  | [] => p.isEmpty
  | c :: cs => startsWith p (c :: cs) || hasSub p cs

/-- The length of a string in bytes (`len(s)`): the sum of the UTF-8 sizes. -/
def byteLen (s : Str) : Nat :=
  (s.map Char.utf8Size).sum

/-- The function `filepath.Base` on a slash-separated path: `.` for the empty path, the last
element once trailing slashes are removed, `/` when nothing but slashes was given. -/
def Base (path : Str) : Str :=
  if path = [] then ['.']
  else
    let stripped := (path.reverse.dropWhile (fun c => c == '/')).reverse
    let last := (stripped.reverse.takeWhile (fun c => c != '/')).reverse
    if last = [] then ['/'] else last

/-- The function `filepath.Ext`: the suffix that starts at the last dot of the last path
element, empty when that element has no dot. -/
def Ext (path : Str) : Str :=
  let back := path.reverse
  let tail := back.takeWhile (fun c => c != '/' && c != '.')
  match back.drop tail.length with
  | '.' :: _ => '.' :: tail.reverse
  | _ => []

/-! ## The three regular expressions of `GetAllImports` -/

/-- Whether the whole line matches `^(\s+)?import (.+)$`: after the leading run of `\s`
characters comes `import `, followed by at least one character, none a line feed. -/
def regex1Match (line : Str) : Bool :=
  let r := line.dropWhile reSpace
  startsWith "import ".toList r && !(r.drop 7).isEmpty && !(r.drop 7).contains '\n'

/-- The call `regex1.FindAllString(line, -1)`: the pattern is anchored at both ends, so the
only possible match is the whole line. -/
def regex1FindAll (line : Str) : List Str :=
  if regex1Match line then [line] else []

/-- Whether the whole line matches `^(\s+)?from (.*?) import (?:.*)$`. -/
def regex2Match (line : Str) : Bool :=
  let r := line.dropWhile reSpace
  startsWith "from ".toList r && hasSub " import ".toList (r.drop 5) &&
    !(r.drop 5).contains '\n'

/-- The call `regex2.FindAllString(line, -1)`. -/
def regex2FindAll (line : Str) : List Str :=
  if regex2Match line then [line] else []

/-- The call `regex3.FindString(s)` for `^\S*`: the leading run of characters outside `\s`. -/
def regex3Find (s : Str) : Str :=
  s.takeWhile (fun c => !reSpace c)

/-! ## Extraction of raw names from one line -/

/-- How a run of the program can fail. -/
inductive Failure where
  /-- A run-time panic: an index or a slice bound out of range. -/
  | outOfRange
  /-- A run-time panic: a nil pointer is dereferenced. -/
  | nilDeref
  /-- The function `readFile` returned an error. -/
  | readError
  deriving DecidableEq, Repr

deriving instance DecidableEq for Except

/-- The statements `if strings.Contains(library, ".") { library = strings.Split(library, ".")[0] }`. -/
def firstSegment (library : Str) : Str :=
  if Contains library '.' then (Split library '.').headD [] else library

/-- The loop body for one match of `regex1` (lines 135-154).  The slice `item[6:]` is a byte
slice; it is taken here on characters, which is the same thing because a matched and trimmed
item begins with the six one-byte characters of `import` (`trim_regex1_import` below). -/
def plainImport (item : Str) : Except Failure (List Str) :=
  let item := TrimSpace item
  if Contains item ',' then
    if byteLen item < 6 then .error .outOfRange
    else
      let item := TrimSpace (item.drop 6)
      .ok ((Split item ',').map (fun word => firstSegment (regex3Find (TrimSpace word))))
  else
    match (Split item ' ')[1]? with
    | none => .error .outOfRange
    | some field => .ok [firstSegment (TrimSpace field)]

/-- The loop body for one match of `regex2` (lines 157-165). -/
def fromImport (item : Str) : Except Failure (List Str) :=
  let item := TrimSpace item
  match (Split item ' ')[1]? with
  | none => .error .outOfRange
  | some field =>
    let library := TrimSpace field
    if Contains library '.' then
      if library = ['.'] ∨ library = ['.', '.'] then .ok []
      else .ok [(Split library '.').headD []]
    else .ok [library]

/-- A `for` loop that appends what each round yields to the accumulator and stops at the
first failure. -/
def appendAll {α : Type} (f : α → Except Failure (List Str)) :
    List α → Except Failure (List Str)
  | [] => .ok []
  | x :: xs =>
    match f x with
    | .error e => .error e
    | .ok a =>
      match appendAll f xs with
      | .error e => .error e
      | .ok b => .ok (a ++ b)

/-- The raw names one line appends to `importList` (lines 134-166): the matches of `regex1`,
then the matches of `regex2`. -/
def lineImports (line : Str) : Except Failure (List Str) :=
  match appendAll plainImport (regex1FindAll line) with
  | .error e => .error e
  | .ok a =>
    match appendAll fromImport (regex2FindAll line) with
    | .error e => .error e
    | .ok b => .ok (a ++ b)

/-- The raw names of one file: `strings.Split(content, "\n")` and the loop over the lines. -/
def scanContent (content : Str) : Except Failure (List Str) :=
  appendAll lineImports (Split content '\n')

/-! ## The walk over the source tree -/

/-- A file tree as `filepath.Walk` sees it: a file with its base name and its text (`none`
when `readFile` fails on it), or a directory with its base name and its entries in the order
the walk visits them.  Every directory of the tree can be listed. -/
inductive Node where
  | file (name : Str) (content : Option Str)
  | dir (name : Str) (children : List Node)

/-- The default ignore list of line 93. -/
def defaultIgnoreDirs : List Str :=
  [".hg".toList, ".git".toList, ".mypy_cache".toList, ".tox".toList, "__pycache__".toList,
   "env".toList, "venv".toList]

/-- The comparison `a < b` of two Go strings: lexicographic on the bytes, which for UTF-8
text is lexicographic on the code points. -/
def strLt : Str → Str → Bool
  | _, [] => false
  | [], _ :: _ => true
  | a :: as, b :: bs => decide (a < b) || (a == b && strLt as bs)

/-- The function `sort.Strings`: the list in increasing order. -/
def sortStrings (l : List Str) : List Str :=
  l.insertionSort (fun a b => strLt b a = false)

/-- The loop of `sort.Search` on the interval from `i` to `j`, for at most `fuel` rounds
(every round shrinks the interval, so `j - i` rounds are enough). -/
def searchLoop (f : Nat → Bool) : Nat → Nat → Nat → Nat
  | 0, i, _ => i
  | fuel + 1, i, j =>
    if i < j then
      let h := (i + j) / 2
      if !f h then searchLoop f fuel (h + 1) j else searchLoop f fuel i h
    else i

/-- The function `sort.SearchStrings(a, x)`: binary search for the least index whose entry
is not below `x`. -/
def SearchStrings (a : List Str) (x : Str) : Nat :=
  searchLoop (fun h => !strLt (a.getD h []) x) a.length 0 a.length

/-- The ignore list of lines 93-99: the defaults, then `filepath.Base` of every extra name,
sorted. -/
def ignoreDirs (extraIgnoreDirs : List Str) : List Str :=
  sortStrings (defaultIgnoreDirs ++ extraIgnoreDirs.map Base)

/-- The test of line 106:
`i := sort.SearchStrings(ignoreDirs, name); i < ignoreNum && ignoreDirs[i] == name`. -/
def isIgnored (ignore : List Str) (name : Str) : Bool :=
  let i := SearchStrings ignore name
  decide (i < ignore.length) && ignore.getD i [] == name

mutual
/-- The callback of `filepath.Walk` (lines 103-118) on a node and, unless it answered
`filepath.SkipDir`, on everything below: the names appended to `candidates` and the files
appended to `fileList` (base name and text).  `toLower` stands for `strings.ToLower`. -/
def walk (toLower : Str → Str) (ignore : List Str) :
    Node → List Str × List (Str × Option Str)
  | .file name content =>
    if Ext name = ".py".toList then ([name.take (name.length - 3)], [(name, content)])
    else ([], [])
  | .dir name children =>
    if isIgnored ignore (toLower name) then ([], [])
    else
      let below := walkList toLower ignore children
      (name :: below.1, below.2)
/-- The walk over the entries of a directory, one after the other. -/
def walkList (toLower : Str → Str) (ignore : List Str) :
    List Node → List Str × List (Str × Option Str)
  | [] => ([], [])
  | n :: ns =>
    let here := walk toLower ignore n
    let rest := walkList toLower ignore ns
    (here.1 ++ rest.1, here.2 ++ rest.2)
end

/-- The function `strings.ToLower` on strings of one-byte characters: `A` to `Z` become
`a` to `z`. -/
def asciiLower (s : Str) : Str :=
  s.map Char.toLower

/-- The loop body of lines 123-168 for one entry of `fileList`: nothing for `__init__.py`,
a read error when the file cannot be read, the raw names of its text otherwise.  The base
name of the path is the name the walk saw. -/
def scanFile (file : Str × Option Str) : Except Failure (List Str) :=
  if file.1 = "__init__.py".toList then .ok []
  else
    match file.2 with
    | none => .error .readError
    | some content => scanContent content

/-! ## Sets of strings (`go-set`) -/

/-- The constructor `set.NewStringSet(items...)`: the distinct items. -/
def NewStringSet (items : List Str) : List Str :=
  items.dedup

/-- The function `strset.Difference(a, b)`: the members of `a` that are not in `b`. -/
def Difference (a b : List Str) : List Str :=
  a.filter (fun x => !b.contains x)

/-! ## The alias mapping -/

/-- The dictionary built on lines 181-189 from the text of `pyreqs/mapping`: every line is
trimmed and split at colons, and a line of exactly two pieces sets `dict[cons[0]] = cons[1]`.
A later line overrides an earlier one, so new entries go to the front. -/
def parseMapping (mappingCon : Str) : List (Str × Str) :=
  (Split mappingCon '\n').foldl
    (fun dict line =>
      match Split (TrimSpace line) ':' with
      | [k, v] => (k, v) :: dict
      | _ => dict)
    []

/-- The name of the override on line 192. -/
def tensorflow : Str := "tensorflow".toList

/-- The name appended on line 193. -/
def tensorflowGpu : Str := "tensorflow-gpu".toList

/-- The `if`/`else` of lines 195-199: the entry of the table, or the name itself. -/
def aliasOf (dict : List (Str × Str)) (item : Str) : Str :=
  match dict.lookup item with
  | some i => i
  | none => item

/-- The loop of lines 191-200 over `importList`, for a given dictionary. -/
def pkgNames (dict : List (Str × Str)) : List Str → List Str
  | [] => []
  | item :: rest =>
    (if item = tensorflow then [tensorflowGpu] else []) ++ aliasOf dict item ::
      pkgNames dict rest

/-- The function `getPkgName`; `mappingCon` is the text of `pyreqs/mapping`, empty when the
file cannot be read. -/
def getPkgName (mappingCon : Str) (importList : List Str) : List Str :=
  pkgNames (parseMapping mappingCon) importList

/-! ## `GetAllImports` -/

/-- The local-name set: the slice `candidates` after the walk. -/
def localNames (toLower : Str → Str) (root : Node) (extraIgnoreDirs : List Str) : List Str :=
  (walk toLower (ignoreDirs extraIgnoreDirs) root).1

/-- The standard-library names: the lines of `pyreqs/stdlib` (line 173). -/
def stdlibNames (stdlibCon : Str) : List Str :=
  Split stdlibCon '\n'

/-- The raw-import accumulator `importList` after the loop over `fileList`. -/
def rawImports (toLower : Str → Str) (root : Node) (extraIgnoreDirs : List Str) :
    Except Failure (List Str) :=
  appendAll scanFile (walk toLower (ignoreDirs extraIgnoreDirs) root).2

/-- The value of `importList` after line 174: the raw names as a set, minus the local names,
minus the standard-library names.  `List()` enumerates a Go map, in no specified order; the
list here is one such enumeration. -/
def candidateNames (toLower : Str → Str) (stdlibCon : Str) (root : Node)
    (extraIgnoreDirs : List Str) : Except Failure (List Str) :=
  match rawImports toLower root extraIgnoreDirs with
  | .error e => .error e
  | .ok importList =>
    .ok (Difference
      (Difference (NewStringSet importList)
        (NewStringSet (localNames toLower root extraIgnoreDirs)))
      (NewStringSet (stdlibNames stdlibCon)))

/-- The function `GetAllImports`.  `stdlibCon` and `mappingCon` are the texts of
`pyreqs/stdlib` and `pyreqs/mapping` (empty when the file cannot be read). -/
def GetAllImports (toLower : Str → Str) (stdlibCon mappingCon : Str) (root : Node)
    (extraIgnoreDirs : List Str) : Except Failure (List Str) :=
  match candidateNames toLower stdlibCon root extraIgnoreDirs with
  | .error e => .error e
  | .ok importList => .ok (getPkgName mappingCon importList)

/-! ## `GetRequirementsLocal` -/

/-- What `client.Do` gives a lookup goroutine: a transport error (time-out, network failure),
in which case `resp` is nil, or a response with its status code and body. -/
inductive Reply where
  | transportError
  | response (status : Int) (body : Str)
  deriving DecidableEq

/-- What a lookup goroutine does to the state it shares with the aggregating loop. -/
inductive Effect where
  /-- The goroutine panics, which ends the whole process. -/
  | crash (f : Failure)
  /-- The send `resultCh <- requirement`. -/
  | emit (requirement : Str)
  /-- The call `atomic.AddInt32(&badNum, 1)`; nothing is sent. -/
  | fail
  deriving DecidableEq

/-- The body of the goroutine of lines 212-230 for the candidate `item`.  `infoVersion` is
`gjson.Get(body, "info.version").String()`.  After a transport error `resp` is nil and the
statement `defer resp.Body.Close()` dereferences it. -/
def lookupTask (infoVersion : Str → Str) (item : Str) : Reply → Effect
  | .transportError => .crash .nilDeref
  | .response status body =>
    if status = 200 then .emit (item ++ "==".toList ++ infoVersion body)
    else if status = 404 then .fail
    else .fail

/-- Where the aggregating loop of lines 233-244 stands: before the `select`, in its `default`
branch, or past the label `DONE`. -/
inductive Loc where
  | select
  | default
  | done
  deriving DecidableEq

/-- The shared state of `GetRequirementsLocal`.  An entry of `tasks` is `some e` while the
goroutine has still to perform `e`, and `none` once it has settled. -/
structure Resolver where
  tasks : List (Option Effect)
  resultCh : List Str
  badNum : Int
  requirements : List Str
  loc : Loc
  crashed : Bool

/-- The capacity of `resultCh` (line 206). -/
def capacity : Nat := 10

/-- Addition on `int32` wraps around. -/
def wrapInt32 (x : Int) : Int :=
  (x + 2147483648) % 4294967296 - 2147483648

/-- Who moves next: the goroutine of candidate `i`, or the aggregating loop. -/
inductive Action where
  | task (i : Nat)
  | loop

/-- One move, for a candidate list of length `n`.  A goroutine sends when the channel has
room, or increments `badNum`, or panics.  The loop receives when the channel holds a result,
enters `default` when it is empty, and in `default` compares `len(requirements)` with
`len(importList)-int(badNum)`.  A move that cannot be made leaves the state as it is. -/
def step (n : Nat) (s : Resolver) : Action → Resolver
  | .task i =>
    if s.crashed then s
    else
      match s.tasks[i]? with
      | some (some (.emit r)) =>
        if s.resultCh.length < capacity then
          { s with tasks := s.tasks.set i none, resultCh := s.resultCh ++ [r] }
        else s
      | some (some .fail) =>
        { s with tasks := s.tasks.set i none, badNum := wrapInt32 (s.badNum + 1) }
      | some (some (.crash _)) => { s with crashed := true }
      | _ => s
  | .loop =>
    if s.crashed then s
    else
      match s.loc with
      | .select =>
        match s.resultCh with
        | r :: rest => { s with resultCh := rest, requirements := s.requirements ++ [r] }
        | [] => { s with loc := .default }
      | .default =>
        if (s.requirements.length : Int) = (n : Int) - s.badNum then { s with loc := .done }
        else { s with loc := .select }
      | .done => s

/-- The state when the loop is entered: one goroutine per candidate, each candidate paired
with the reply its request gets. -/
def start (infoVersion : Str → Str) (lookups : List (Str × Reply)) : Resolver :=
  { tasks := lookups.map (fun p => some (lookupTask infoVersion p.1 p.2))
    resultCh := []
    badNum := 0
    requirements := []
    loc := .select
    crashed := false }

/-- The state after the moves of a schedule. -/
def exec (n : Nat) (schedule : List Action) (s : Resolver) : Resolver :=
  schedule.foldl (step n) s

/-- The function `GetRequirementsLocal` along a schedule: the list it returns if the loop
has been left, `none` if it is still running (or the process has crashed). -/
def GetRequirementsLocal (infoVersion : Str → Str) (lookups : List (Str × Reply))
    (schedule : List Action) : Option (List Str) :=
  let s := exec lookups.length schedule (start infoVersion lookups)
  if s.loc = .done ∧ s.crashed = false then some s.requirements else none

/-- The requirements to be returned: `name==version` for every candidate answered with
status 200, in the order of the candidate list. -/
def expectedRequirements (infoVersion : Str → Str) : List (Str × Reply) → List Str
  | [] => []
  | (item, .response status body) :: rest =>
    if status = 200 then
      (item ++ "==".toList ++ infoVersion body) :: expectedRequirements infoVersion rest
    else expectedRequirements infoVersion rest
  | (_, .transportError) :: rest => expectedRequirements infoVersion rest

/-! ## Shapes of import lines -/

/-- A character that may stand in a name of an import line: anything but white space, a dot
or a comma (the letters, digits and underscores of Python identifiers are of this kind). -/
def nameChar (c : Char) : Bool :=
  !isSpace c && c != '.' && c != ','

/-- A non-empty identifier. -/
def isIdentifier (s : Str) : Bool :=
  !s.isEmpty && s.all nameChar

/-- One entry of an import list: a dotted path `first.more₁.more₂...`, optionally followed
by ` as <name>`. -/
structure Entry where
  first : Str
  more : List Str
  asName : Option Str

/-- Every segment of the entry, and its alias if it has one, is a non-empty identifier. -/
def Entry.wellFormed (e : Entry) : Bool :=
  isIdentifier e.first && e.more.all isIdentifier &&
    (match e.asName with
     | none => true
     | some a => isIdentifier a)

/-- The dotted path `first.more₁.more₂...`. -/
def dotted (first : Str) (more : List Str) : Str :=
  first ++ (more.map (fun seg => '.' :: seg)).flatten

/-- The text of an entry. -/
def Entry.text (e : Entry) : Str :=
  dotted e.first e.more ++
    (match e.asName with
     | none => []
     | some a => " as ".toList ++ a)

/-- The line `<ws>import <e₀>,<gap₁><e₁>,<gap₂><e₂>...`: leading white space, the word
`import`, one space, the first entry, and every further entry after a comma and a number of
spaces. -/
def importLine (ws : Str) (e : Entry) (rest : List (Nat × Entry)) : Str :=
  ws ++ "import ".toList ++ e.text ++
    (rest.map (fun p => ',' :: (List.replicate p.1 ' ' ++ p.2.text))).flatten

/-- The line `<ws>from <module> import <tail>`. -/
def fromLine (ws module tail : Str) : Str :=
  ws ++ "from ".toList ++ module ++ " import ".toList ++ tail

/-! ## Worked examples -/

/-- The entry `b.c as bc`. -/
def entryBC : Entry := { first := "b".toList, more := ["c".toList], asName := some "bc".toList }

/-- The entry `a`. -/
def entryA : Entry := { first := "a".toList, more := [], asName := none }

/-- A project directory `Pillow` whose only file imports `PIL`. -/
def pillowTree : Node :=
  .dir "Pillow".toList [.file "app.py".toList (some "import PIL".toList)]

/-- A project whose only file imports both `attr` and `attrs`. -/
def attrsTree : Node :=
  .dir "proj".toList [.file "app.py".toList (some "import attr\nimport attrs".toList)]

/-- The tree of the end-to-end example: `app.py` and a local `helpers.py`. -/
def appTree : Node :=
  .dir "proj".toList
    [.file "app.py".toList
        (some "import os\nimport requests\nfrom flask import Flask\nimport helpers".toList),
     .file "helpers.py".toList (some [])]

/-- A directory `Build` with one source file. -/
def buildDir : Node :=
  .dir "Build".toList [.file "x.py".toList (some "import numpy".toList)]

/-- Three candidates: two known to the index, one answered with 404. -/
def threeLookups : List (Str × Reply) :=
  [("a".toList, .response 200 "1.0".toList), ("b".toList, .response 404 []),
   ("c".toList, .response 200 "2".toList)]

/-- A line `key:value` of the mapping file: neither part holds a colon or a line feed, and
the line has no white space at either end. -/
def aliasLineOk (p : Str × Str) : Bool :=
  !Contains p.1 ':' && !Contains p.2 ':' && !Contains p.1 '\n' && !Contains p.2 '\n' &&
    TrimSpace (p.1 ++ ':' :: p.2) == p.1 ++ ':' :: p.2

/-- The text of a mapping file with one line `key:value` per entry, every line ended by a
line feed. -/
def mappingText (entries : List (Str × Str)) : Str :=
  (entries.map (fun p => p.1 ++ ':' :: p.2 ++ ['\n'])).flatten

/-- A mapping file of two lines. -/
def twoAliases : List (Str × Str) :=
  [("PIL".toList, "Pillow".toList), ("yaml".toList, "PyYAML".toList)]

/-! ## Auxiliary notions -/

/-- The string is not empty and its last character is outside `p`. -/
def EndsOutside (p : Char → Bool) (s : Str) : Prop :=
  ∃ init x, s = init ++ [x] ∧ p x = false

/-! ## Bookkeeping for the resolver -/

/-- The requirements that goroutines still running are going to send. -/
def pendingEmits : List (Option Effect) → List Str
  | [] => []
  | some (.emit r) :: ts => r :: pendingEmits ts
  | _ :: ts => pendingEmits ts

/-- The number of goroutines still running that are going to count a failure. -/
def pendingFails : List (Option Effect) → Nat
  | [] => 0
  | some .fail :: ts => pendingFails ts + 1
  | _ :: ts => pendingFails ts

/-- No goroutine still running is going to panic. -/
def NoCrash (tasks : List (Option Effect)) : Prop :=
  ∀ t ∈ tasks, ∀ f, t ≠ some (.crash f)

/-- Whether the index confirms the candidate: its request is answered with status 200. -/
def confirmed (p : Str × Reply) : Bool :=
  match p.2 with
  | .response status _ => status == 200
  | .transportError => false

/-- Whether the request of the candidate is answered with status 200 or with status 404. -/
def answered (p : Str × Reply) : Bool :=
  match p.2 with
  | .response status _ => status == 200 || status == 404
  | .transportError => false

/-- A schedule that lets the goroutines run one after the other, from candidate `k` on: a
goroutine that sends is followed by one round of the loop, which receives; two last rounds
of the loop find the channel empty and make the comparison. -/
def inTurn (k : Nat) : List (Option Effect) → List Action
  | [] => [.loop, .loop]
  | some (.emit _) :: ts => .task k :: .loop :: inTurn (k + 1) ts
  | _ :: ts => .task k :: inTurn (k + 1) ts

/-- The invariant of the resolver, for the list `expected` of requirements to be produced and
the number `failures` of lookups that fail: what has been received, what waits in the
channel and what is still to be sent make up `expected`; `badNum` has counted no more than
the failures already settled; and once the loop is left nothing is pending. -/
structure Inv (expected : List Str) (failures : Nat) (s : Resolver) : Prop where
  perm : (s.requirements ++ s.resultCh ++ pendingEmits s.tasks).Perm expected
  badLe : s.badNum + (pendingFails s.tasks : Int) ≤ (failures : Int)
  badGe : -2147483648 ≤ s.badNum
  noCrash : NoCrash s.tasks
  alive : s.crashed = false
  atDone : s.loc = .done →
    s.resultCh = [] ∧ pendingEmits s.tasks = [] ∧ pendingFails s.tasks = 0

/-! ## Theorems -/

/-! ### `getPkgName` -/

theorem parseMapping_empty : parseMapping [] = [] := rfl

theorem pkgNames_eq_map (dict : List (Str × Str)) (l : List Str) (h : tensorflow ∉ l) :
    pkgNames dict l = l.map (aliasOf dict) := by
  induction l with
  | nil => rfl
  | cons x xs ih =>
    have hx : x ≠ tensorflow := fun e => h (e ▸ List.mem_cons_self _ _)
    have hxs : tensorflow ∉ xs := fun m => h (List.mem_cons_of_mem _ m)
    simp [pkgNames, hx, ih hxs]

theorem aliasOf_nil (x : Str) : aliasOf [] x = x := rfl

theorem pkgNames_perm (dict : List (Str × Str)) {l₁ l₂ : List Str} (h : l₁.Perm l₂) :
    (pkgNames dict l₁).Perm (pkgNames dict l₂) := by
  induction h with
  | nil => exact List.Perm.refl _
  | cons x _ ih =>
    simp only [pkgNames]
    exact List.Perm.append_left _ (List.Perm.cons _ ih)
  | swap x y l =>
    simp only [pkgNames]
    have e : ∀ (a b : List Str) (u v : Str) (r : List Str),
        (a ++ u :: (b ++ v :: r)).Perm (b ++ v :: (a ++ u :: r)) := by
      intro a b u v r
      have h1 : a ++ u :: (b ++ v :: r) = ((a ++ [u]) ++ (b ++ [v])) ++ r := by simp
      have h2 : b ++ v :: (a ++ u :: r) = ((b ++ [v]) ++ (a ++ [u])) ++ r := by simp
      rw [h1, h2]
      exact List.Perm.append_right r List.perm_append_comm
    exact e _ _ _ _ _
  | trans _ _ ih₁ ih₂ => exact ih₁.trans ih₂

/-- C4: on the candidate list `[tensorflow]` with an empty alias table `getPkgName` returns
two names, `tensorflow-gpu` followed by `tensorflow` itself, and with any table the
candidate `tensorflow` yields `tensorflow-gpu` followed by a second name. -/
theorem getPkgName_tensorflow_two_names :
    getPkgName [] [tensorflow] = [tensorflowGpu, tensorflow] ∧
    ∀ dict : List (Str × Str),
      pkgNames dict [tensorflow] = [tensorflowGpu, aliasOf dict tensorflow] :=
  ⟨by decide, fun _ => rfl⟩

/-! ### The set difference of `GetAllImports` -/

theorem mem_NewStringSet (l : List Str) (x : Str) : x ∈ NewStringSet l ↔ x ∈ l := by
  simp [NewStringSet]

theorem mem_Difference (a b : List Str) (x : Str) :
    x ∈ Difference a b ↔ x ∈ a ∧ x ∉ b := by
  simp [Difference]

theorem nodup_Difference (a b : List Str) (h : a.Nodup) : (Difference a b).Nodup :=
  h.filter _

theorem aliasOf_cases (dict : List (Str × Str)) (x : Str) :
    aliasOf dict x = x ∨ dict.lookup x = some (aliasOf dict x) := by
  unfold aliasOf
  cases h : dict.lookup x with
  | none => exact Or.inl rfl
  | some v => exact Or.inr rfl

theorem mem_pkgNames (dict : List (Str × Str)) (l : List Str) (y : Str)
    (h : y ∈ pkgNames dict l) :
    (y = tensorflowGpu ∧ tensorflow ∈ l) ∨ ∃ x ∈ l, y = aliasOf dict x := by
  induction l with
  | nil => simp [pkgNames] at h
  | cons a as ih =>
    simp only [pkgNames, List.mem_append, List.mem_cons] at h
    rcases h with h | h | h
    · by_cases ha : a = tensorflow
      · simp [ha] at h
        exact Or.inl ⟨h, by simp [ha]⟩
      · simp [ha] at h
    · exact Or.inr ⟨a, List.mem_cons_self _ _, h⟩
    · rcases ih h with ⟨e, m⟩ | ⟨x, m, e⟩
      · exact Or.inl ⟨e, List.mem_cons_of_mem _ m⟩
      · exact Or.inr ⟨x, List.mem_cons_of_mem _ m, e⟩

theorem candidateNames_ok (toLower : Str → Str) (stdlibCon : Str) (root : Node)
    (extraIgnoreDirs cands : List Str)
    (h : candidateNames toLower stdlibCon root extraIgnoreDirs = .ok cands) :
    cands.Nodup ∧
    ∀ x ∈ cands, x ∉ localNames toLower root extraIgnoreDirs ∧ x ∉ stdlibNames stdlibCon := by
  unfold candidateNames at h
  cases hr : rawImports toLower root extraIgnoreDirs with
  | error e => rw [hr] at h; cases h
  | ok importList =>
    rw [hr] at h
    injection h with h
    subst h
    refine ⟨nodup_Difference _ _ (nodup_Difference _ _ (List.nodup_dedup _)), ?_⟩
    intro x hx
    rw [mem_Difference, mem_Difference, mem_NewStringSet, mem_NewStringSet,
      mem_NewStringSet] at hx
    exact ⟨hx.1.2, hx.2⟩

theorem GetAllImports_ok (toLower : Str → Str) (stdlibCon mappingCon : Str) (root : Node)
    (extraIgnoreDirs out : List Str)
    (h : GetAllImports toLower stdlibCon mappingCon root extraIgnoreDirs = .ok out) :
    ∃ cands, candidateNames toLower stdlibCon root extraIgnoreDirs = .ok cands ∧
      out = getPkgName mappingCon cands := by
  unfold GetAllImports at h
  cases hc : candidateNames toLower stdlibCon root extraIgnoreDirs with
  | error e => rw [hc] at h; cases h
  | ok cands =>
    rw [hc] at h
    injection h with h
    exact ⟨cands, rfl, h.symm⟩

/-- C3: a name of the list `GetAllImports` returns can be a local name and a
standard-library name: in the project directory `Pillow`, whose file imports `PIL`, with the
alias entry `PIL:Pillow`, the returned list is `[Pillow]` and `Pillow` is a local name. -/
theorem GetAllImports_returns_local_name :
    GetAllImports asciiLower [] "PIL:Pillow".toList pillowTree [] = .ok ["Pillow".toList] ∧
    "Pillow".toList ∈ localNames asciiLower pillowTree [] := by
  decide

/-- C3 (as amended): no name of the set difference that `GetAllImports` hands to
`getPkgName` is a local name or a standard-library name, and a name of the returned list is
outside both sets unless it is the alias-table entry of a candidate or the name
`tensorflow-gpu` written for the candidate `tensorflow`. -/
theorem GetAllImports_disjoint (toLower : Str → Str) (stdlibCon mappingCon : Str)
    (root : Node) (extraIgnoreDirs out : List Str)
    (h : GetAllImports toLower stdlibCon mappingCon root extraIgnoreDirs = .ok out) :
    ∃ cands, candidateNames toLower stdlibCon root extraIgnoreDirs = .ok cands ∧
      (∀ x ∈ cands,
        x ∉ localNames toLower root extraIgnoreDirs ∧ x ∉ stdlibNames stdlibCon) ∧
      ∀ y ∈ out,
        (y ∉ localNames toLower root extraIgnoreDirs ∧ y ∉ stdlibNames stdlibCon) ∨
        (∃ x ∈ cands, (parseMapping mappingCon).lookup x = some y) ∨
        (y = tensorflowGpu ∧ tensorflow ∈ cands) := by
  obtain ⟨cands, hc, ho⟩ := GetAllImports_ok _ _ _ _ _ _ h
  have hd := (candidateNames_ok _ _ _ _ _ hc).2
  refine ⟨cands, hc, hd, fun y hy => ?_⟩
  rw [ho] at hy
  rcases mem_pkgNames _ _ _ hy with ⟨e, m⟩ | ⟨x, m, e⟩
  · exact Or.inr (Or.inr ⟨e, m⟩)
  · rcases aliasOf_cases (parseMapping mappingCon) x with hx | hx
    · rw [hx] at e
      exact Or.inl (e ▸ hd x m)
    · exact Or.inr (Or.inl ⟨x, m, e ▸ hx⟩)

theorem GetAllImports_disjoint_witness :
    GetAllImports asciiLower "os".toList [] appTree [] =
        .ok ["requests".toList, "flask".toList] ∧
    ∃ cands, candidateNames asciiLower "os".toList appTree [] = .ok cands ∧
      (∀ x ∈ cands,
        x ∉ localNames asciiLower appTree [] ∧ x ∉ stdlibNames "os".toList) ∧
      ∀ y ∈ ["requests".toList, "flask".toList],
        (y ∉ localNames asciiLower appTree [] ∧ y ∉ stdlibNames "os".toList) ∨
        (∃ x ∈ cands, (parseMapping []).lookup x = some y) ∨
        (y = tensorflowGpu ∧ tensorflow ∈ cands) :=
  ⟨by decide, GetAllImports_disjoint asciiLower "os".toList [] appTree []
    ["requests".toList, "flask".toList] (by decide)⟩

/-- C6: the list `GetAllImports` returns can hold a name twice: a file that imports `attr`
and `attrs`, with the alias entry `attr:attrs`, gives `[attrs, attrs]`. -/
theorem GetAllImports_returns_duplicate :
    GetAllImports asciiLower [] "attr:attrs".toList attrsTree [] =
      .ok ["attrs".toList, "attrs".toList] ∧
    ¬ ["attrs".toList, "attrs".toList].Nodup := by
  decide

/-- C6 (as amended): the set difference that `GetAllImports` hands to `getPkgName` holds no
name twice, and when `tensorflow` is not in it and the alias table sends no two of its names
to the same name, `GetAllImports` returns a list that holds no name twice, in whatever order
the set is enumerated. -/
theorem GetAllImports_nodup (toLower : Str → Str) (stdlibCon mappingCon : Str)
    (root : Node) (extraIgnoreDirs cands : List Str)
    (h : candidateNames toLower stdlibCon root extraIgnoreDirs = .ok cands) :
    cands.Nodup ∧
    (tensorflow ∉ cands →
      (∀ x ∈ cands, ∀ y ∈ cands,
        aliasOf (parseMapping mappingCon) x = aliasOf (parseMapping mappingCon) y → x = y) →
      (∃ out, GetAllImports toLower stdlibCon mappingCon root extraIgnoreDirs = .ok out ∧
        out.Nodup) ∧
      ∀ l : List Str, l.Perm cands → (getPkgName mappingCon l).Nodup) := by
  have hn := (candidateNames_ok _ _ _ _ _ h).1
  refine ⟨hn, fun ht hinj => ?_⟩
  have key : ∀ l : List Str, l.Perm cands → (getPkgName mappingCon l).Nodup := by
    intro l hl
    have ht2 : tensorflow ∉ l := fun m => ht (hl.subset m)
    show (pkgNames (parseMapping mappingCon) l).Nodup
    rw [pkgNames_eq_map _ _ ht2]
    refine List.Nodup.map_on ?_ (hl.nodup_iff.mpr hn)
    intro x hx y hy e
    exact hinj x (hl.subset hx) y (hl.subset hy) e
  refine ⟨⟨getPkgName mappingCon cands, ?_, key cands (List.Perm.refl _)⟩, key⟩
  unfold GetAllImports
  rw [h]

theorem GetAllImports_nodup_witness :
    candidateNames asciiLower "os".toList appTree [] =
        .ok ["requests".toList, "flask".toList] ∧
    ["requests".toList, "flask".toList].Nodup ∧
    (getPkgName [] ["requests".toList, "flask".toList]).Nodup :=
  ⟨by decide,
   (GetAllImports_nodup asciiLower "os".toList [] appTree []
      ["requests".toList, "flask".toList] (by decide)).1,
   ((GetAllImports_nodup asciiLower "os".toList [] appTree []
      ["requests".toList, "flask".toList] (by decide)).2 (by decide) (by decide)).2
        _ (List.Perm.refl _)⟩

/-! ### The sorted ignore list and its binary search -/

theorem strLt_irrefl (a : Str) : strLt a a = false := by
  induction a with
  | nil => rfl
  | cons x xs ih => simp [strLt, ih]

theorem strLt_trans (a b c : Str) (h1 : strLt a b = true) (h2 : strLt b c = true) :
    strLt a c = true := by
  induction a generalizing b c with
  | nil =>
    cases b with
    | nil => simp [strLt] at h1
    | cons y ys =>
      cases c with
      | nil => simp [strLt] at h2
      | cons z zs => rfl
  | cons x xs ih =>
    cases b with
    | nil => simp [strLt] at h1
    | cons y ys =>
      cases c with
      | nil => simp [strLt] at h2
      | cons z zs =>
        simp only [strLt, Bool.or_eq_true, decide_eq_true_eq, Bool.and_eq_true,
          beq_iff_eq] at h1 h2 ⊢
        rcases h1 with h1 | ⟨e1, h1⟩
        · rcases h2 with h2 | ⟨e2, h2⟩
          · exact Or.inl (lt_trans h1 h2)
          · exact Or.inl (e2 ▸ h1)
        · rcases h2 with h2 | ⟨e2, h2⟩
          · exact Or.inl (e1 ▸ h2)
          · exact Or.inr ⟨e1.trans e2, ih ys zs h1 h2⟩

theorem strLt_connected (a b : Str) (h1 : strLt a b = false) (h2 : strLt b a = false) :
    a = b := by
  induction a generalizing b with
  | nil =>
    cases b with
    | nil => rfl
    | cons y ys => simp [strLt] at h1
  | cons x xs ih =>
    cases b with
    | nil => simp [strLt] at h2
    | cons y ys =>
      simp only [strLt, Bool.or_eq_false_iff, decide_eq_false_iff_not, Bool.and_eq_false_imp,
        beq_iff_eq] at h1 h2
      have hxy : x = y := by
        rcases lt_trichotomy x y with h | h | h
        · exact absurd h h1.1
        · exact h
        · exact absurd h h2.1
      rw [hxy, ih ys (h1.2 hxy) (h2.2 hxy.symm)]

/-- Any two Go strings are comparable. -/
theorem strLe_total (a b : Str) : strLt b a = false ∨ strLt a b = false := by
  cases h : strLt b a with
  | false => exact Or.inl rfl
  | true =>
    right
    cases h2 : strLt a b with
    | false => rfl
    | true =>
      have := strLt_trans a b a h2 h
      rw [strLt_irrefl] at this
      cases this

theorem strLe_trans (a b c : Str) (h1 : strLt b a = false) (h2 : strLt c b = false) :
    strLt c a = false := by
  cases h : strLt c a with
  | false => rfl
  | true =>
    cases hab : strLt a b with
    | true =>
      have := strLt_trans c a b h hab
      rw [h2] at this
      cases this
    | false =>
      have e := strLt_connected a b hab h1
      rw [e, h2] at h
      cases h

theorem sortStrings_sorted (l : List Str) :
    (sortStrings l).Sorted (fun a b => strLt b a = false) := by
  haveI : IsTotal Str (fun a b => strLt b a = false) := ⟨strLe_total⟩
  haveI : IsTrans Str (fun a b => strLt b a = false) := ⟨strLe_trans⟩
  exact List.sorted_insertionSort _ l

theorem mem_sortStrings (l : List Str) (x : Str) : x ∈ sortStrings l ↔ x ∈ l :=
  List.mem_insertionSort _

/-- The loop of `sort.Search` ends within its fuel at the boundary of a monotone test. -/
theorem searchLoop_spec (f : Nat → Bool) (n : Nat)
    (hmono : ∀ k m, k ≤ m → m < n → f k = true → f m = true)
    (fuel i j : Nat) (hfuel : j - i ≤ fuel) (hij : i ≤ j) (hjn : j ≤ n)
    (hlow : ∀ k, k < i → f k = false) (hhigh : ∀ k, j ≤ k → k < n → f k = true) :
    searchLoop f fuel i j ≤ n ∧
    (∀ k, k < searchLoop f fuel i j → f k = false) ∧
    (∀ k, searchLoop f fuel i j ≤ k → k < n → f k = true) := by
  induction fuel generalizing i j with
  | zero =>
    have e : i = j := by omega
    subst e
    exact ⟨hjn, hlow, hhigh⟩
  | succ fuel ih =>
    unfold searchLoop
    by_cases hlt : i < j
    · simp only [hlt, if_true]
      have h1 : i ≤ (i + j) / 2 := by omega
      have h2 : (i + j) / 2 < j := by omega
      cases hf : f ((i + j) / 2) with
      | false =>
        simp only [Bool.not_false, if_true]
        refine ih ((i + j) / 2 + 1) j (by omega) (by omega) hjn ?_ hhigh
        intro k hk
        cases hk2 : f k with
        | false => rfl
        | true =>
          have := hmono k ((i + j) / 2) (by omega) (by omega) hk2
          rw [hf] at this
          cases this
      | true =>
        simp only [Bool.not_true, Bool.false_eq_true, if_false]
        refine ih i ((i + j) / 2) (by omega) h1 (by omega) hlow ?_
        intro k hk hkn
        exact hmono _ k hk hkn hf
    · simp only [hlt, if_false]
      have e : i = j := by omega
      subst e
      exact ⟨hjn, hlow, hhigh⟩

/-- On a sorted list the test of line 106 is membership. -/
theorem isIgnored_sorted (a : List Str) (x : Str)
    (hs : a.Sorted (fun u v => strLt v u = false)) :
    isIgnored a x = true ↔ x ∈ a := by
  have hrel : ∀ k m (hk : k < m) (hm : m < a.length),
      strLt (a.getD m []) (a.getD k []) = false := by
    intro k m hk hm
    have := hs.rel_get_of_lt (a := ⟨k, by omega⟩) (b := ⟨m, hm⟩) hk
    rw [List.getD_eq_getElem _ _ hm, List.getD_eq_getElem _ _ (by omega : k < a.length)]
    exact this
  have hmono : ∀ k m, k ≤ m → m < a.length →
      (fun h => !strLt (a.getD h []) x) k = true →
      (fun h => !strLt (a.getD h []) x) m = true := by
    intro k m hkm hm hk
    simp only [Bool.not_eq_true'] at hk ⊢
    rcases Nat.eq_or_lt_of_le hkm with e | hlt
    · rw [← e]; exact hk
    · exact strLe_trans _ _ _ hk (hrel k m hlt hm)
  obtain ⟨_, hlow, hhigh⟩ := searchLoop_spec (fun h => !strLt (a.getD h []) x) a.length
    hmono a.length 0 a.length (by omega) (by omega) (le_refl _)
    (fun k hk => by omega) (fun k hk hkn => by omega)
  unfold isIgnored
  simp only [Bool.and_eq_true, decide_eq_true_eq, beq_iff_eq]
  constructor
  · rintro ⟨hlt, he⟩
    rw [← he, List.getD_eq_getElem _ _ hlt]
    exact List.getElem_mem _
  · intro hx
    obtain ⟨m, hm, hmx⟩ := List.mem_iff_getElem.mp hx
    have hge : SearchStrings a x ≤ m := by
      by_contra hcon
      have := hlow m (show m < SearchStrings a x by omega)
      simp only [Bool.not_eq_false'] at this
      rw [List.getD_eq_getElem _ _ hm, hmx, strLt_irrefl] at this
      cases this
    have hlt : SearchStrings a x < a.length := by omega
    refine ⟨hlt, ?_⟩
    have h1 := hhigh (SearchStrings a x) (le_refl _) hlt
    simp only [Bool.not_eq_true'] at h1
    apply strLt_connected _ _ h1
    rcases Nat.eq_or_lt_of_le hge with e | hlt2
    · have : a.getD (SearchStrings a x) [] = x := by
        rw [e, List.getD_eq_getElem _ _ hm, hmx]
      rw [this, strLt_irrefl]
    · have := hrel (SearchStrings a x) m hlt2 hm
      rw [List.getD_eq_getElem _ _ hm, hmx] at this
      exact this

/-- The test of line 106 against the list built on lines 93-99 holds exactly for the default
names and the base names of the extra names, compared as they are. -/
theorem isIgnored_ignoreDirs (extraIgnoreDirs : List Str) (name : Str) :
    isIgnored (ignoreDirs extraIgnoreDirs) name = true ↔
      name ∈ defaultIgnoreDirs ∨ name ∈ extraIgnoreDirs.map Base := by
  unfold ignoreDirs
  rw [isIgnored_sorted _ _ (sortStrings_sorted _), mem_sortStrings, List.mem_append]

/-! ### The ignore rule of the walk -/

theorem walk_ignored (toLower : Str → Str) (ignore : List Str) (name : Str)
    (children : List Node) (h : isIgnored ignore (toLower name) = true) :
    walk toLower ignore (.dir name children) = ([], []) := by
  simp [walk, h]

/-- C7: the directory `Build` is not skipped when the caller passes the extra ignore name
`Build`, although the two names are equal: the name of the directory is lowered before the
search and the extra name is not, so `Build` and its file `x.py` enter the local names and
`x.py` is scanned. -/
theorem walk_extra_name_not_lowered :
    asciiLower "Build".toList = asciiLower (Base "Build".toList) ∧
    isIgnored (ignoreDirs ["Build".toList]) (asciiLower "Build".toList) = false ∧
    walk asciiLower (ignoreDirs ["Build".toList]) buildDir =
      (["Build".toList, "x".toList], [("x.py".toList, some "import numpy".toList)]) ∧
    GetAllImports asciiLower [] [] buildDir ["Build".toList] = .ok ["numpy".toList] := by
  decide

/-! ### The lookup goroutine -/

/-- C8: after a transport error the lookup goroutine does not count a failure as it does for
status 404 (and for any other status but 200): it dereferences the nil response and panics,
which ends the process with `badNum` still zero and the loop never left. -/
theorem lookupTask_transport_error_panics :
    (∀ (infoVersion : Str → Str) (item : Str),
      lookupTask infoVersion item .transportError = .crash .nilDeref) ∧
    (∀ (infoVersion : Str → Str) (item body : Str),
      lookupTask infoVersion item (.response 404 body) = .fail ∧
      lookupTask infoVersion item (.response 500 body) = .fail) ∧
    (exec 1 [.task 0, .loop, .loop] (start id [("x".toList, .transportError)])).crashed
      = true ∧
    (exec 1 [.task 0, .loop, .loop] (start id [("x".toList, .transportError)])).badNum = 0 ∧
    GetRequirementsLocal id [("x".toList, .transportError)] [.task 0, .loop, .loop] = none ∧
    GetRequirementsLocal id [("x".toList, .response 404 [])] [.task 0, .loop, .loop] =
      some [] :=
  ⟨fun _ _ => rfl, fun _ _ _ => ⟨rfl, rfl⟩, by decide, by decide, by decide, by decide⟩

/-! ### Lines on which the extraction fails -/

/-- C10: the line made of `import` and two spaces matches the plain-import pattern, and the
extraction panics on it: trimmed, it is the single word `import`, which has no second
space-separated field. -/
theorem lineImports_import_spaces_panics :
    regex1Match "import  ".toList = true ∧
    TrimSpace "import  ".toList = "import".toList ∧
    Split "import".toList ' ' = ["import".toList] ∧
    lineImports "import  ".toList = .error .outOfRange ∧
    scanContent "import os\nimport  \n".toList = .error .outOfRange := by
  decide

/-! ### Lemmas on the library functions -/

theorem TrimSpace_eq_rdropWhile (s : Str) :
    TrimSpace s = (s.dropWhile isSpace).rdropWhile isSpace := rfl

theorem dropWhile_append_stop (p : Char → Bool) (pre : Str) (x : Char) (xs : Str)
    (hpre : ∀ c ∈ pre, p c = true) (hx : p x = false) :
    (pre ++ x :: xs).dropWhile p = x :: xs := by
  induction pre with
  | nil => simp [List.dropWhile, hx]
  | cons a as ih =>
    have ha : p a = true := hpre a (List.mem_cons_self _ _)
    simp only [List.cons_append, List.dropWhile, ha]
    exact ih (fun c hc => hpre c (List.mem_cons_of_mem _ hc))

theorem EndsOutside.append_left {p : Char → Bool} {s : Str} (a : Str)
    (h : EndsOutside p s) : EndsOutside p (a ++ s) := by
  obtain ⟨init, x, e, hx⟩ := h
  exact ⟨a ++ init, x, by simp [e], hx⟩

theorem EndsOutside.of_all {p : Char → Bool} {s : Str} (hne : s ≠ [])
    (h : ∀ c ∈ s, p c = false) : EndsOutside p s := by
  refine ⟨s.dropLast, s.getLast hne, (List.dropLast_append_getLast hne).symm, ?_⟩
  exact h _ (List.getLast_mem hne)

theorem rdropWhile_endsOutside (p : Char → Bool) (s : Str) (h : EndsOutside p s) :
    s.rdropWhile p = s := by
  obtain ⟨init, x, e, hx⟩ := h
  subst e
  exact List.rdropWhile_concat_neg _ _ _ (by simp [hx])

theorem rdropWhile_append_endsOutside (p : Char → Bool) (s t : Str)
    (h : EndsOutside p s) : ∃ t1, (s ++ t).rdropWhile p = s ++ t1 := by
  induction t using List.reverseRecOn with
  | nil => exact ⟨[], by simp [rdropWhile_endsOutside p s h]⟩
  | append_singleton t x ih =>
    by_cases hx : p x = true
    · obtain ⟨t1, e⟩ := ih
      refine ⟨t1, ?_⟩
      rw [← List.append_assoc, List.rdropWhile_concat_pos _ _ _ hx, e]
    · refine ⟨t ++ [x], ?_⟩
      rw [← List.append_assoc, List.rdropWhile_concat_neg _ _ _ hx]

/-- Trimming removes leading white space and nothing else from a string that, after it,
begins and ends with a character that is not white space. -/
theorem TrimSpace_strip (pre : Str) (x : Char) (xs : Str)
    (hpre : ∀ c ∈ pre, isSpace c = true) (hx : isSpace x = false)
    (hend : EndsOutside isSpace (x :: xs)) :
    TrimSpace (pre ++ x :: xs) = x :: xs := by
  rw [TrimSpace_eq_rdropWhile, dropWhile_append_stop isSpace pre x xs hpre hx]
  exact rdropWhile_endsOutside _ _ hend

/-- Trimming removes leading white space and at most a part of what follows a piece that
begins and ends with a character that is not white space. -/
theorem TrimSpace_strip_append (pre : Str) (x : Char) (xs t : Str)
    (hpre : ∀ c ∈ pre, isSpace c = true) (hx : isSpace x = false)
    (hend : EndsOutside isSpace (x :: xs)) :
    ∃ t1, TrimSpace (pre ++ (x :: xs) ++ t) = (x :: xs) ++ t1 := by
  have e : pre ++ (x :: xs) ++ t = pre ++ x :: (xs ++ t) := by simp
  rw [e, TrimSpace_eq_rdropWhile, dropWhile_append_stop isSpace pre x (xs ++ t) hpre hx]
  exact rdropWhile_append_endsOutside isSpace (x :: xs) t hend

theorem TrimSpace_of_no_space (s : Str) (h : ∀ c ∈ s, isSpace c = false) :
    TrimSpace s = s := by
  cases s with
  | nil => rfl
  | cons x xs =>
    exact TrimSpace_strip [] x xs (by simp) (h x (List.mem_cons_self _ _))
      (EndsOutside.of_all (by simp) h)

theorem Split_ne_nil (s : Str) (sep : Char) : Split s sep ≠ [] := by
  induction s with
  | nil => simp [Split]
  | cons c cs ih =>
    unfold Split
    split
    · simp
    · split <;> simp

theorem Split_of_not_mem (s : Str) (sep : Char) (h : sep ∉ s) : Split s sep = [s] := by
  induction s with
  | nil => rfl
  | cons c cs ih =>
    have hc : c ≠ sep := fun e => h (e ▸ List.mem_cons_self _ _)
    have hcs : sep ∉ cs := fun m => h (List.mem_cons_of_mem _ m)
    simp [Split, hc, ih hcs]

theorem Split_append_sep (a b : Str) (sep : Char) (h : sep ∉ a) :
    Split (a ++ sep :: b) sep = a :: Split b sep := by
  induction a with
  | nil => simp [Split]
  | cons c cs ih =>
    have hc : c ≠ sep := fun e => h (e ▸ List.mem_cons_self _ _)
    have hcs : sep ∉ cs := fun m => h (List.mem_cons_of_mem _ m)
    simp [Split, hc, ih hcs]

theorem Contains_iff (s : Str) (c : Char) : Contains s c = true ↔ c ∈ s := by
  simp [Contains]

theorem Contains_eq_false (s : Str) (c : Char) (h : c ∉ s) : Contains s c = false := by
  cases hc : Contains s c with
  | false => rfl
  | true => exact absurd ((Contains_iff s c).mp hc) h

theorem hasSub_append (p a b : Str) : hasSub p (a ++ p ++ b) = true := by
  induction a with
  | nil =>
    cases hp : p ++ b with
    | nil =>
      have h1 : p = [] := (List.append_eq_nil.mp hp).1
      have h2 : b = [] := (List.append_eq_nil.mp hp).2
      simp [hasSub, h1, h2]
    | cons c cs =>
      simp only [List.nil_append, hp, hasSub, Bool.or_eq_true]
      left
      rw [← hp]
      simp [startsWith]
  | cons c cs ih =>
    simp only [List.cons_append, hasSub, Bool.or_eq_true]
    right
    simpa using ih

theorem byteLen_append (a b : Str) : byteLen (a ++ b) = byteLen a + byteLen b := by
  simp [byteLen]

theorem isSpace_of_reSpace (c : Char) (h : reSpace c = true) : isSpace c = true := by
  simp only [reSpace, Bool.or_eq_true, beq_iff_eq] at h
  rcases h with (((h | h) | h) | h) | h <;> subst h <;> decide

theorem reSpace_of_not_isSpace (c : Char) (h : isSpace c = false) : reSpace c = false := by
  cases hr : reSpace c with
  | false => rfl
  | true => rw [isSpace_of_reSpace c hr] at h; cases h

/-! ### Identifiers and dotted paths -/

theorem nameChar_spec (c : Char) (h : nameChar c = true) :
    isSpace c = false ∧ c ≠ '.' ∧ c ≠ ',' := by
  simp only [nameChar, Bool.and_eq_true, Bool.not_eq_true', bne_iff_ne, ne_eq] at h
  exact ⟨h.1.1, h.1.2, h.2⟩

theorem isIdentifier_spec (s : Str) (h : isIdentifier s = true) :
    s ≠ [] ∧ ∀ c ∈ s, nameChar c = true := by
  simp only [isIdentifier, Bool.and_eq_true, Bool.not_eq_true', List.all_eq_true] at h
  refine ⟨?_, h.2⟩
  intro e
  rw [e] at h
  simp at h

theorem not_space_ne (c d : Char) (hc : isSpace c = false) (hd : isSpace d = true) :
    d ≠ c := by
  intro e
  rw [e, hc] at hd
  cases hd

theorem mem_dotted (first : Str) (more : List Str) (hf : isIdentifier first = true)
    (hm : more.all isIdentifier = true) (c : Char) (hc : c ∈ dotted first more) :
    nameChar c = true ∨ c = '.' := by
  simp only [dotted, List.mem_append, List.mem_flatten, List.mem_map] at hc
  rcases hc with hc | ⟨l, ⟨seg, hseg, rfl⟩, hc⟩
  · exact Or.inl ((isIdentifier_spec first hf).2 c hc)
  · rcases List.mem_cons.mp hc with hc | hc
    · exact Or.inr hc
    · exact Or.inl ((isIdentifier_spec seg (List.all_eq_true.mp hm seg hseg)).2 c hc)

theorem dotted_no_space (first : Str) (more : List Str) (hf : isIdentifier first = true)
    (hm : more.all isIdentifier = true) : ∀ c ∈ dotted first more, isSpace c = false := by
  intro c hc
  rcases mem_dotted first more hf hm c hc with h | h
  · exact (nameChar_spec c h).1
  · subst h; decide

theorem dotted_head (first : Str) (more : List Str) (hf : isIdentifier first = true) :
    ∃ x xs, dotted first more = x :: xs ∧ nameChar x = true := by
  obtain ⟨hne, hall⟩ := isIdentifier_spec first hf
  cases first with
  | nil => exact absurd rfl hne
  | cons x xs => exact ⟨x, _, rfl, hall x (List.mem_cons_self _ _)⟩

theorem firstSegment_dotted (first : Str) (more : List Str)
    (hf : isIdentifier first = true) : firstSegment (dotted first more) = first := by
  have hdot : '.' ∉ first := fun m =>
    (nameChar_spec _ ((isIdentifier_spec first hf).2 _ m)).2.1 rfl
  cases more with
  | nil => simp [dotted, firstSegment, Contains_eq_false first '.' hdot]
  | cons m ms =>
    have e : dotted first (m :: ms) =
        first ++ '.' :: (m ++ (ms.map (fun seg => '.' :: seg)).flatten) := by
      simp [dotted]
    have hc : Contains (dotted first (m :: ms)) '.' = true := by
      rw [Contains_iff, e]; simp
    unfold firstSegment
    rw [if_pos hc, e, Split_append_sep _ _ _ hdot]
    rfl

/-! ### From-import lines -/

theorem appendAll_single {α : Type} (f : α → Except Failure (List Str)) (x : α) :
    appendAll f [x] = f x := by
  cases h : f x with
  | error e => simp [appendAll, h]
  | ok a => simp [appendAll, h]

theorem lineImports_of_from (line : Str) (h1 : regex1FindAll line = [])
    (h2 : regex2FindAll line = [line]) : lineImports line = fromImport line := by
  unfold lineImports
  rw [h1, h2, appendAll_single]
  cases h : fromImport line with
  | error e => simp [appendAll]
  | ok a => simp [appendAll]

theorem lineImports_of_plain (line : Str) (h1 : regex1FindAll line = [line])
    (h2 : regex2FindAll line = []) : lineImports line = plainImport line := by
  unfold lineImports
  rw [h1, h2, appendAll_single]
  cases h : plainImport line with
  | error e => simp
  | ok a => simp [appendAll]

theorem regex_fromLine (ws module tail : Str) (hws : ∀ c ∈ ws, reSpace c = true)
    (hmod : '\n' ∉ module) (htail : '\n' ∉ tail) :
    regex1FindAll (fromLine ws module tail) = [] ∧
    regex2FindAll (fromLine ws module tail) = [fromLine ws module tail] := by
  have e : fromLine ws module tail =
      ws ++ 'f' :: ("rom ".toList ++ module ++ " import ".toList ++ tail) := by
    simp [fromLine]
  have hd : (fromLine ws module tail).dropWhile reSpace =
      'f' :: ("rom ".toList ++ module ++ " import ".toList ++ tail) := by
    rw [e]
    exact dropWhile_append_stop reSpace ws 'f' _ hws (by decide)
  constructor
  · have h1 : regex1Match (fromLine ws module tail) = false := by
      simp [regex1Match, hd, startsWith]
    simp [regex1FindAll, h1]
  · have h5 : ('f' :: ("rom ".toList ++ module ++ " import ".toList ++ tail)).drop 5 =
        module ++ " import ".toList ++ tail := by
      simp
    have hn : '\n' ∉ module ++ " import ".toList ++ tail := by
      simp only [List.mem_append, not_or]
      exact ⟨⟨hmod, by decide⟩, htail⟩
    have h2 : regex2Match (fromLine ws module tail) = true := by
      simp only [regex2Match, hd, h5, Bool.and_eq_true, Bool.not_eq_true']
      refine ⟨⟨by simp [startsWith], hasSub_append _ _ _⟩, ?_⟩
      simpa using hn
    simp [regex2FindAll, h2]

theorem field_fromLine (ws module tail : Str) (hws : ∀ c ∈ ws, reSpace c = true)
    (hmod : ∀ c ∈ module, isSpace c = false) :
    (Split (TrimSpace (fromLine ws module tail)) ' ')[1]? = some module := by
  have e : fromLine ws module tail =
      ws ++ ('f' :: ("rom ".toList ++ module ++ " import".toList)) ++ (' ' :: tail) := by
    simp [fromLine]
  have hend : EndsOutside isSpace ('f' :: ("rom ".toList ++ module ++ " import".toList)) :=
    ⟨"from ".toList ++ module ++ " impor".toList, 't', by simp, by decide⟩
  obtain ⟨t1, ht⟩ := TrimSpace_strip_append ws 'f'
    ("rom ".toList ++ module ++ " import".toList) (' ' :: tail)
    (fun c hc => isSpace_of_reSpace c (hws c hc)) (by decide) hend
  rw [e, ht]
  have e2 : 'f' :: ("rom ".toList ++ module ++ " import".toList) ++ t1 =
      "from".toList ++ ' ' :: (module ++ ' ' :: ("import".toList ++ t1)) := by
    simp
  have hsp : ' ' ∉ module := fun m => by
    have := hmod _ m
    revert this
    decide
  rw [e2, Split_append_sep _ _ _ (by decide), Split_append_sep _ _ _ hsp]
  simp

/-- What a from-import line contributes when its module holds no white space: what lines
158-165 make of the module. -/
theorem lineImports_fromLine (ws module tail : Str) (hws : ∀ c ∈ ws, reSpace c = true)
    (hmod : ∀ c ∈ module, isSpace c = false) (htail : '\n' ∉ tail) :
    lineImports (fromLine ws module tail) =
      if Contains module '.' then
        if module = ['.'] ∨ module = ['.', '.'] then .ok []
        else .ok [(Split module '.').headD []]
      else .ok [module] := by
  have hnl : '\n' ∉ module := fun m => by
    have := hmod _ m
    revert this
    decide
  obtain ⟨h1, h2⟩ := regex_fromLine ws module tail hws hnl htail
  have hf : fromImport (fromLine ws module tail) =
      if Contains module '.' then
        if module = ['.'] ∨ module = ['.', '.'] then .ok []
        else .ok [(Split module '.').headD []]
      else .ok [module] := by
    unfold fromImport
    simp only [field_fromLine ws module tail hws hmod, TrimSpace_of_no_space module hmod]
  rw [lineImports_of_from _ h1 h2, hf]

/-- C2: a line `from <module> import <...>` contributes no raw name when the module is `.`
or `..`, and exactly one raw name, the first segment of the module, when the module is a
dotted path of non-empty identifiers; the plain-import pattern does not match the line, so
nothing after `import` is collected. -/
theorem fromLine_imports (ws module tail : Str) (hws : ∀ c ∈ ws, reSpace c = true)
    (htail : '
' ∉ tail) :
    regex1FindAll (fromLine ws module tail) = [] ∧
    (module = ['.'] ∨ module = ['.', '.'] →
      lineImports (fromLine ws module tail) = .ok []) ∧
    (∀ (first : Str) (more : List Str), isIdentifier first = true →
      more.all isIdentifier = true → module = dotted first more →
      lineImports (fromLine ws module tail) = .ok [first]) := by
  refine ⟨?_, ?_, ?_⟩
  · unfold regex1FindAll regex1Match
    have e : fromLine ws module tail =
        ws ++ 'f' :: ("rom ".toList ++ module ++ " import ".toList ++ tail) := by
      simp [fromLine]
    rw [e, dropWhile_append_stop reSpace ws 'f' _ hws (by decide)]
    simp [startsWith]
  · intro hm
    have hsp : ∀ c ∈ module, isSpace c = false := by
      rcases hm with hm | hm <;> subst hm <;> decide
    rw [lineImports_fromLine ws module tail hws hsp htail]
    rcases hm with hm | hm <;> subst hm <;> decide
  · intro first more hf hmore hm
    subst hm
    rw [lineImports_fromLine ws _ tail hws (dotted_no_space first more hf hmore) htail]
    obtain ⟨x, xs, hx, hxn⟩ := dotted_head first more hf
    have hne : ¬ (dotted first more = ['.'] ∨ dotted first more = ['.', '.']) := by
      rw [hx]
      have hxd : x ≠ '.' := (nameChar_spec x hxn).2.1
      intro h
      rcases h with h | h <;> exact hxd (List.cons.inj h).1
    have hfs := firstSegment_dotted first more hf
    unfold firstSegment at hfs
    by_cases hc : Contains (dotted first more) '.' = true
    · rw [if_pos hc] at hfs
      rw [if_pos hc, if_neg hne, hfs]
    · rw [if_neg hc] at hfs
      rw [if_neg hc, hfs]

theorem fromLine_imports_witness :
    lineImports "  from pkg.sub import x, y".toList = .ok ["pkg".toList] ∧
    lineImports "from .. import x".toList = .ok [] :=
  ⟨(fromLine_imports "  ".toList "pkg.sub".toList "x, y".toList (by decide) (by decide)).2.2
      "pkg".toList ["sub".toList] (by decide) (by decide) (by decide),
   (fromLine_imports [] "..".toList "x".toList (by decide) (by decide)).2.1 (by decide)⟩

/-! ### Plain-import lines -/

theorem wellFormed_spec (e : Entry) (h : e.wellFormed = true) :
    isIdentifier e.first = true ∧ e.more.all isIdentifier = true ∧
      ∀ a, e.asName = some a → isIdentifier a = true := by
  unfold Entry.wellFormed at h
  simp only [Bool.and_eq_true] at h
  refine ⟨h.1.1, h.1.2, fun a ha => ?_⟩
  have h2 := h.2
  rw [ha] at h2
  exact h2

/-- The text of an entry is its dotted path followed by nothing or by a space and more. -/
theorem text_split (e : Entry) :
    ∃ t, e.text = dotted e.first e.more ++ t ∧ (t = [] ∨ ∃ t1, t = ' ' :: t1) := by
  unfold Entry.text
  cases e.asName with
  | none => exact ⟨[], rfl, Or.inl rfl⟩
  | some a => exact ⟨" as ".toList ++ a, rfl, Or.inr ⟨"as ".toList ++ a, rfl⟩⟩

theorem mem_text (e : Entry) (he : e.wellFormed = true) (c : Char) (hc : c ∈ e.text) :
    nameChar c = true ∨ c = '.' ∨ c = ' ' ∨ c = 'a' ∨ c = 's' := by
  obtain ⟨hf, hm, ha⟩ := wellFormed_spec e he
  unfold Entry.text at hc
  rcases List.mem_append.mp hc with hc | hc
  · rcases mem_dotted _ _ hf hm c hc with h | h
    · exact Or.inl h
    · exact Or.inr (Or.inl h)
  · cases hn : e.asName with
    | none => rw [hn] at hc; simp at hc
    | some a =>
      rw [hn] at hc
      rcases List.mem_append.mp hc with hc | hc
      · have : c = ' ' ∨ c = 'a' ∨ c = 's' ∨ c = ' ' := by simpa using hc
        rcases this with h | h | h | h
        · exact Or.inr (Or.inr (Or.inl h))
        · exact Or.inr (Or.inr (Or.inr (Or.inl h)))
        · exact Or.inr (Or.inr (Or.inr (Or.inr h)))
        · exact Or.inr (Or.inr (Or.inl h))
      · exact Or.inl ((isIdentifier_spec a (ha a hn)).2 c hc)

theorem text_no_comma (e : Entry) (he : e.wellFormed = true) : ',' ∉ e.text := by
  intro hc
  rcases mem_text e he _ hc with h | h | h | h | h
  · exact (nameChar_spec _ h).2.2 rfl
  all_goals revert h; decide

theorem text_no_newline (e : Entry) (he : e.wellFormed = true) : '\n' ∉ e.text := by
  intro hc
  rcases mem_text e he _ hc with h | h | h | h | h
  · have := (nameChar_spec _ h).1
    revert this; decide
  all_goals revert h; decide

theorem text_head (e : Entry) (he : e.wellFormed = true) :
    ∃ x xs, e.text = x :: xs ∧ isSpace x = false := by
  obtain ⟨hf, _, _⟩ := wellFormed_spec e he
  obtain ⟨x, xs, hx, hxn⟩ := dotted_head e.first e.more hf
  obtain ⟨t, ht, _⟩ := text_split e
  exact ⟨x, xs ++ t, by rw [ht, hx]; rfl, (nameChar_spec x hxn).1⟩

theorem text_end (e : Entry) (he : e.wellFormed = true) : EndsOutside isSpace e.text := by
  obtain ⟨hf, hm, ha⟩ := wellFormed_spec e he
  unfold Entry.text
  cases hn : e.asName with
  | none =>
    obtain ⟨x, xs, hx, _⟩ := dotted_head e.first e.more hf
    simp only [List.append_nil]
    exact EndsOutside.of_all (by rw [hx]; simp) (dotted_no_space _ _ hf hm)
  | some a =>
    obtain ⟨hne, hall⟩ := isIdentifier_spec a (ha a hn)
    rw [← List.append_assoc]
    exact EndsOutside.append_left _
      (EndsOutside.of_all hne (fun c hc => (nameChar_spec c (hall c hc)).1))

theorem regex3Find_text (e : Entry) (he : e.wellFormed = true) :
    regex3Find e.text = dotted e.first e.more := by
  obtain ⟨hf, hm, _⟩ := wellFormed_spec e he
  obtain ⟨t, ht, hcase⟩ := text_split e
  have hp : ∀ c ∈ dotted e.first e.more, (fun c => !reSpace c) c = true := by
    intro c hc
    simp [reSpace_of_not_isSpace c (dotted_no_space _ _ hf hm c hc)]
  unfold regex3Find
  rw [ht, List.takeWhile_append_of_pos hp]
  rcases hcase with h | ⟨t1, h⟩
  · simp [h]
  · have : reSpace ' ' = true := by decide
    simp [h, List.takeWhile, this]

/-- What lines 140-144 make of one word of a comma-separated list. -/
theorem word_first (k : Nat) (e : Entry) (he : e.wellFormed = true) :
    firstSegment (regex3Find (TrimSpace (List.replicate k ' ' ++ e.text))) = e.first := by
  obtain ⟨x, xs, hx, hxs⟩ := text_head e he
  have hend := text_end e he
  have ht : TrimSpace (List.replicate k ' ' ++ e.text) = e.text := by
    rw [hx] at hend ⊢
    refine TrimSpace_strip _ x xs (fun c hc => ?_) hxs hend
    rw [(List.mem_replicate.mp hc).2]
    decide
  rw [ht, regex3Find_text e he]
  exact firstSegment_dotted _ _ (wellFormed_spec e he).1

/-- The part of an import line after `import `. -/
theorem importLine_eq (ws : Str) (e : Entry) (rest : List (Nat × Entry)) :
    importLine ws e rest =
      ws ++ 'i' :: ("mport ".toList ++ (e.text ++
        (rest.map (fun p => ',' :: (List.replicate p.1 ' ' ++ p.2.text))).flatten)) := by
  simp [importLine]

theorem endsOutside_flatten (rest : List (Nat × Entry))
    (hrest : ∀ p ∈ rest, p.2.wellFormed = true) (a : Str) (ha : EndsOutside isSpace a) :
    EndsOutside isSpace
      (a ++ (rest.map (fun p => ',' :: (List.replicate p.1 ' ' ++ p.2.text))).flatten) := by
  induction rest generalizing a with
  | nil => simpa using ha
  | cons p ps ih =>
    have hp := hrest p (List.mem_cons_self _ _)
    have hps : ∀ q ∈ ps, q.2.wellFormed = true :=
      fun q hq => hrest q (List.mem_cons_of_mem _ hq)
    have e1 : a ++ ((p :: ps).map
          (fun p => ',' :: (List.replicate p.1 ' ' ++ p.2.text))).flatten =
        (a ++ ',' :: List.replicate p.1 ' ' ++ p.2.text) ++
          (ps.map (fun p => ',' :: (List.replicate p.1 ' ' ++ p.2.text))).flatten := by
      simp
    rw [e1]
    exact ih hps _ (EndsOutside.append_left _ (text_end p.2 hp))

theorem mem_flatten_entries (rest : List (Nat × Entry)) (c : Char)
    (hc : c ∈ (rest.map (fun p => ',' :: (List.replicate p.1 ' ' ++ p.2.text))).flatten) :
    c = ',' ∨ c = ' ' ∨ ∃ p ∈ rest, c ∈ p.2.text := by
  simp only [List.mem_flatten, List.mem_map] at hc
  obtain ⟨l, ⟨p, hp, rfl⟩, hc⟩ := hc
  rcases List.mem_cons.mp hc with h | h
  · exact Or.inl h
  · rcases List.mem_append.mp h with h | h
    · exact Or.inr (Or.inl (List.mem_replicate.mp h).2)
    · exact Or.inr (Or.inr ⟨p, hp, h⟩)

theorem Split_flatten (f : Nat × Entry → Str) (rest : List (Nat × Entry))
    (hrest : ∀ p ∈ rest, ',' ∉ f p) (a : Str) (ha : ',' ∉ a) :
    Split (a ++ (rest.map (fun p => ',' :: f p)).flatten) ',' = a :: rest.map f := by
  induction rest generalizing a with
  | nil => simpa using Split_of_not_mem a ',' ha
  | cons p ps ih =>
    have e1 : a ++ ((p :: ps).map (fun p => ',' :: f p)).flatten =
        a ++ ',' :: (f p ++ (ps.map (fun p => ',' :: f p)).flatten) := by
      simp
    rw [e1, Split_append_sep _ _ _ ha,
      ih (fun q hq => hrest q (List.mem_cons_of_mem _ hq)) (f p)
        (hrest p (List.mem_cons_self _ _))]
    rfl

theorem body_facts (e : Entry) (rest : List (Nat × Entry)) (he : e.wellFormed = true)
    (hrest : ∀ p ∈ rest, p.2.wellFormed = true) :
    (∃ x xs, e.text ++
        (rest.map (fun p => ',' :: (List.replicate p.1 ' ' ++ p.2.text))).flatten = x :: xs ∧
      isSpace x = false) ∧
    EndsOutside isSpace (e.text ++
      (rest.map (fun p => ',' :: (List.replicate p.1 ' ' ++ p.2.text))).flatten) ∧
    '\n' ∉ e.text ++
      (rest.map (fun p => ',' :: (List.replicate p.1 ' ' ++ p.2.text))).flatten := by
  refine ⟨?_, endsOutside_flatten rest hrest _ (text_end e he), ?_⟩
  · obtain ⟨x, xs, hx, hxs⟩ := text_head e he
    exact ⟨x, xs ++ _, by rw [hx]; rfl, hxs⟩
  · intro hc
    rcases List.mem_append.mp hc with h | h
    · exact text_no_newline e he h
    · rcases mem_flatten_entries rest _ h with h | h | ⟨p, hp, h⟩
      · revert h; decide
      · revert h; decide
      · exact text_no_newline p.2 (hrest p hp) h

theorem regex_importLine (ws : Str) (e : Entry) (rest : List (Nat × Entry))
    (hws : ∀ c ∈ ws, reSpace c = true) (he : e.wellFormed = true)
    (hrest : ∀ p ∈ rest, p.2.wellFormed = true) :
    regex1FindAll (importLine ws e rest) = [importLine ws e rest] ∧
    regex2FindAll (importLine ws e rest) = [] := by
  obtain ⟨⟨x, xs, hx, _⟩, _, hnl⟩ := body_facts e rest he hrest
  have hd : (importLine ws e rest).dropWhile reSpace =
      'i' :: ("mport ".toList ++ (e.text ++
        (rest.map (fun p => ',' :: (List.replicate p.1 ' ' ++ p.2.text))).flatten)) := by
    rw [importLine_eq]
    exact dropWhile_append_stop reSpace ws 'i' _ hws (by decide)
  constructor
  · have h1 : regex1Match (importLine ws e rest) = true := by
      simp only [regex1Match, hd, Bool.and_eq_true, Bool.not_eq_true']
      have h7 : ('i' :: ("mport ".toList ++ (e.text ++
          (rest.map (fun p => ',' :: (List.replicate p.1 ' ' ++ p.2.text))).flatten))).drop 7
          = e.text ++
            (rest.map (fun p => ',' :: (List.replicate p.1 ' ' ++ p.2.text))).flatten := by
        simp
      rw [h7]
      refine ⟨⟨by simp [startsWith], by rw [hx]; rfl⟩, ?_⟩
      simpa using hnl
    simp [regex1FindAll, h1]
  · have h2 : regex2Match (importLine ws e rest) = false := by
      simp [regex2Match, hd, startsWith]
    simp [regex2FindAll, h2]

theorem TrimSpace_importLine (ws : Str) (e : Entry) (rest : List (Nat × Entry))
    (hws : ∀ c ∈ ws, reSpace c = true) (he : e.wellFormed = true)
    (hrest : ∀ p ∈ rest, p.2.wellFormed = true) :
    TrimSpace (importLine ws e rest) =
      "import".toList ++ ' ' :: (e.text ++
        (rest.map (fun p => ',' :: (List.replicate p.1 ' ' ++ p.2.text))).flatten) := by
  obtain ⟨_, hend, _⟩ := body_facts e rest he hrest
  rw [importLine_eq]
  exact TrimSpace_strip ws 'i' _ (fun c hc => isSpace_of_reSpace c (hws c hc)) (by decide)
    (EndsOutside.append_left "import ".toList hend)

theorem plainImport_single (ws : Str) (e : Entry) (hws : ∀ c ∈ ws, reSpace c = true)
    (he : e.wellFormed = true) :
    plainImport (importLine ws e []) = .ok [e.first] := by
  obtain ⟨hf, hm, _⟩ := wellFormed_spec e he
  have ht := TrimSpace_importLine ws e [] hws he (by simp)
  simp only [List.map_nil, List.flatten_nil, List.append_nil] at ht
  have hcomma : Contains ("import".toList ++ ' ' :: e.text) ',' = false := by
    apply Contains_eq_false
    intro hc
    rcases List.mem_append.mp hc with h | h
    · revert h; decide
    · rcases List.mem_cons.mp h with h | h
      · revert h; decide
      · exact text_no_comma e he h
  have hsp : ' ' ∉ dotted e.first e.more := fun m => by
    have := dotted_no_space _ _ hf hm _ m
    revert this; decide
  have hfield : (Split ("import".toList ++ ' ' :: e.text) ' ')[1]? =
      some (dotted e.first e.more) := by
    rw [Split_append_sep _ _ _ (by decide)]
    obtain ⟨t, ht2, hcase⟩ := text_split e
    rw [ht2]
    rcases hcase with h | ⟨t1, h⟩
    · rw [h, List.append_nil, Split_of_not_mem _ _ hsp]
      rfl
    · rw [h, Split_append_sep _ _ _ hsp]
      simp
  unfold plainImport
  simp only [ht, hcomma, hfield, Bool.false_eq_true, if_false]
  rw [TrimSpace_of_no_space _ (dotted_no_space _ _ hf hm), firstSegment_dotted _ _ hf]

theorem plainImport_list (ws : Str) (e : Entry) (p : Nat × Entry) (ps : List (Nat × Entry))
    (hws : ∀ c ∈ ws, reSpace c = true) (he : e.wellFormed = true)
    (hrest : ∀ q ∈ p :: ps, q.2.wellFormed = true) :
    plainImport (importLine ws e (p :: ps)) =
      .ok (e.first :: (p :: ps).map (fun q => q.2.first)) := by
  have ht := TrimSpace_importLine ws e (p :: ps) hws he hrest
  obtain ⟨⟨x, xs, hx, hxs⟩, hend, _⟩ := body_facts e (p :: ps) he hrest
  have hcomma : Contains ("import".toList ++ ' ' :: (e.text ++
      ((p :: ps).map (fun p => ',' :: (List.replicate p.1 ' ' ++ p.2.text))).flatten)) ','
      = true := by
    rw [Contains_iff]
    simp
  have hlen : ¬ byteLen ("import".toList ++ ' ' :: (e.text ++
      ((p :: ps).map (fun p => ',' :: (List.replicate p.1 ' ' ++ p.2.text))).flatten)) < 6 := by
    rw [byteLen_append]
    have : byteLen "import".toList = 6 := by decide
    omega
  have hdrop : ("import".toList ++ ' ' :: (e.text ++
      ((p :: ps).map (fun p => ',' :: (List.replicate p.1 ' ' ++ p.2.text))).flatten)).drop 6
      = [' '] ++ (e.text ++
      ((p :: ps).map (fun p => ',' :: (List.replicate p.1 ' ' ++ p.2.text))).flatten) := by
    simp
  have htrim : TrimSpace ([' '] ++ (e.text ++
      ((p :: ps).map (fun p => ',' :: (List.replicate p.1 ' ' ++ p.2.text))).flatten)) =
      e.text ++
      ((p :: ps).map (fun p => ',' :: (List.replicate p.1 ' ' ++ p.2.text))).flatten := by
    rw [hx] at hend ⊢
    exact TrimSpace_strip [' '] x xs (by decide) hxs hend
  have hsplit := Split_flatten (fun q => List.replicate q.1 ' ' ++ q.2.text) (p :: ps)
    (fun q hq hc => by
      rcases List.mem_append.mp hc with h | h
      · have := (List.mem_replicate.mp h).2
        revert this; decide
      · exact text_no_comma q.2 (hrest q hq) h)
    e.text (text_no_comma e he)
  unfold plainImport
  simp only [ht, hcomma, if_true, if_neg hlen, hdrop, htrim, hsplit]
  congr 1
  rw [List.map_cons, List.map_map]
  congr 1
  · simpa using word_first 0 e he
  · apply List.map_congr_left
    intro q hq
    exact word_first q.1 q.2 (hrest q hq)

/-- C1: a line made of leading white space, `import`, one space and a comma-separated list
of entries, each a dotted path of non-empty identifiers with an optional ` as <name>`,
contributes exactly the first dotted segment of each entry, in order. -/
theorem importLine_imports (ws : Str) (e : Entry) (rest : List (Nat × Entry))
    (hws : ∀ c ∈ ws, reSpace c = true) (he : e.wellFormed = true)
    (hrest : ∀ p ∈ rest, p.2.wellFormed = true) :
    lineImports (importLine ws e rest) = .ok (e.first :: rest.map (fun p => p.2.first)) := by
  obtain ⟨h1, h2⟩ := regex_importLine ws e rest hws he hrest
  rw [lineImports_of_plain _ h1 h2]
  cases rest with
  | nil => exact plainImport_single ws e hws he
  | cons p ps => exact plainImport_list ws e p ps hws he hrest

theorem importLine_imports_witness :
    lineImports "import a, b.c as bc".toList = .ok ["a".toList, "b".toList] ∧
    lineImports "  import a.b.c".toList = .ok ["a".toList] ∧
    lineImports "import a as x".toList = .ok ["a".toList] ∧
    lineImports "import a, b, c".toList = .ok ["a".toList, "b".toList, "c".toList] :=
  ⟨importLine_imports [] entryA [(1, entryBC)] (by decide) (by decide) (by decide),
   importLine_imports "  ".toList ⟨"a".toList, ["b".toList, "c".toList], none⟩ []
     (by decide) (by decide) (by decide),
   importLine_imports [] ⟨"a".toList, [], some "x".toList⟩ []
     (by decide) (by decide) (by decide),
   importLine_imports [] entryA
     [(1, ⟨"b".toList, [], none⟩), (1, ⟨"c".toList, [], none⟩)]
     (by decide) (by decide) (by decide)⟩

/-! ### The patterns, read as regular expressions -/

theorem startsWith_iff (p s : Str) : startsWith p s = true ↔ ∃ r, s = p ++ r := by
  unfold startsWith
  rw [beq_iff_eq]
  constructor
  · intro h
    exact ⟨s.drop p.length, by
      have := (List.take_append_drop p.length s).symm
      rw [h] at this
      exact this⟩
  · rintro ⟨r, rfl⟩
    simp

theorem hasSub_iff (p s : Str) : hasSub p s = true ↔ ∃ a b, s = a ++ p ++ b := by
  constructor
  · intro h
    induction s with
    | nil =>
      have hp : p = [] := by simpa [hasSub] using h
      exact ⟨[], [], by simp [hp]⟩
    | cons c cs ih =>
      simp only [hasSub, Bool.or_eq_true] at h
      rcases h with h | h
      · obtain ⟨r, hr⟩ := (startsWith_iff p (c :: cs)).mp h
        exact ⟨[], r, by simpa using hr⟩
      · obtain ⟨a, b, hab⟩ := ih h
        exact ⟨c :: a, b, by simp [hab]⟩
  · rintro ⟨a, b, rfl⟩
    exact hasSub_append p a b

/-- The model of `^(\s+)?import (.+)$`: a line matches exactly when it is a run of `\s`
characters, then `import `, then at least one character, none of them a line feed. -/
theorem regex1Match_iff (line : Str) :
    regex1Match line = true ↔
      ∃ w r, line = w ++ "import ".toList ++ r ∧ (∀ c ∈ w, reSpace c = true) ∧
        r ≠ [] ∧ '\n' ∉ r := by
  constructor
  · intro h
    simp only [regex1Match, Bool.and_eq_true, Bool.not_eq_true'] at h
    obtain ⟨⟨h1, h2⟩, h3⟩ := h
    obtain ⟨r, hr⟩ := (startsWith_iff _ _).mp h1
    have hd : (line.dropWhile reSpace).drop 7 = r := by rw [hr]; simp
    rw [hd] at h2 h3
    refine ⟨line.takeWhile reSpace, r, ?_, fun c hc => List.mem_takeWhile_imp hc, ?_, ?_⟩
    · rw [List.append_assoc, ← hr, List.takeWhile_append_dropWhile]
    · intro e
      rw [e] at h2
      simp at h2
    · simpa using h3
  · rintro ⟨w, r, rfl, hw, hr, hn⟩
    have hd : (w ++ "import ".toList ++ r).dropWhile reSpace = "import ".toList ++ r := by
      have e : w ++ "import ".toList ++ r = w ++ 'i' :: ("mport ".toList ++ r) := by simp
      rw [e, dropWhile_append_stop reSpace w 'i' _ hw (by decide)]
      rfl
    simp only [regex1Match, hd, Bool.and_eq_true, Bool.not_eq_true']
    have h7 : ("import ".toList ++ r).drop 7 = r := by simp
    rw [h7]
    refine ⟨⟨(startsWith_iff _ _).mpr ⟨r, rfl⟩, ?_⟩, by simpa using hn⟩
    cases r with
    | nil => exact absurd rfl hr
    | cons x xs => rfl

/-- The model of `^(\s+)?from (.*?) import (?:.*)$`: a line matches exactly when it is a run
of `\s` characters, then `from `, a text, ` import ` and a text, neither text holding a line
feed. -/
theorem regex2Match_iff (line : Str) :
    regex2Match line = true ↔
      ∃ w m t, line = w ++ "from ".toList ++ m ++ " import ".toList ++ t ∧
        (∀ c ∈ w, reSpace c = true) ∧ '\n' ∉ m ∧ '\n' ∉ t := by
  constructor
  · intro h
    simp only [regex2Match, Bool.and_eq_true, Bool.not_eq_true'] at h
    obtain ⟨⟨h1, h2⟩, h3⟩ := h
    obtain ⟨r, hr⟩ := (startsWith_iff _ _).mp h1
    have hd : (line.dropWhile reSpace).drop 5 = r := by rw [hr]; simp
    rw [hd] at h2 h3
    obtain ⟨m, t, hmt⟩ := (hasSub_iff _ _).mp h2
    have h3b : '\n' ∉ r := by simpa using h3
    rw [hmt] at h3b
    simp only [List.mem_append, not_or] at h3b
    refine ⟨line.takeWhile reSpace, m, t, ?_, fun c hc => List.mem_takeWhile_imp hc,
      h3b.1.1, h3b.2⟩
    have : line = line.takeWhile reSpace ++ line.dropWhile reSpace :=
      (List.takeWhile_append_dropWhile _ _).symm
    rw [hr, hmt] at this
    simpa [List.append_assoc] using this
  · rintro ⟨w, m, t, rfl, hw, hm, ht⟩
    have h := (regex_fromLine w m t hw hm ht).2
    unfold regex2FindAll at h
    by_cases hb : regex2Match (fromLine w m t) = true
    · exact hb
    · rw [if_neg hb] at h
      cases h

/-! ### Where the extraction cannot fail -/

/-- A matched and trimmed plain-import item begins with the six characters of `import`. -/
theorem trim_regex1_import (line : Str) (h : regex1Match line = true) :
    ∃ r, TrimSpace line = "import".toList ++ r := by
  obtain ⟨w, r, rfl, hw, _, _⟩ := (regex1Match_iff line).mp h
  have e : w ++ "import ".toList ++ r = w ++ ('i' :: "mport".toList) ++ (' ' :: r) := by
    simp
  rw [e]
  exact TrimSpace_strip_append w 'i' "mport".toList (' ' :: r)
    (fun c hc => isSpace_of_reSpace c (hw c hc)) (by decide)
    ⟨"impor".toList, 't', rfl, by decide⟩

/-- The comma branch of the plain-import extraction never fails on a matched line: the
slice `item[6:]` is in range. -/
theorem plainImport_comma_ok (line : Str) (h : regex1Match line = true)
    (hc : Contains (TrimSpace line) ',' = true) : ∃ names, plainImport line = .ok names := by
  obtain ⟨r, hr⟩ := trim_regex1_import line h
  have hlen : ¬ byteLen (TrimSpace line) < 6 := by
    rw [hr, byteLen_append]
    have : byteLen "import".toList = 6 := by decide
    omega
  unfold plainImport
  simp only [hc, if_true, if_neg hlen]
  exact ⟨_, rfl⟩

/-- The from-import extraction never fails on a matched line. -/
theorem fromImport_ok (line : Str) (h : regex2Match line = true) :
    ∃ names, fromImport line = .ok names := by
  obtain ⟨w, m, t, rfl, hw, _, _⟩ := (regex2Match_iff line).mp h
  have e : w ++ "from ".toList ++ m ++ " import ".toList ++ t =
      w ++ ('f' :: ("rom ".toList ++ m ++ " import".toList)) ++ (' ' :: t) := by
    simp
  obtain ⟨t1, ht⟩ := TrimSpace_strip_append w 'f' ("rom ".toList ++ m ++ " import".toList)
    (' ' :: t) (fun c hc => isSpace_of_reSpace c (hw c hc)) (by decide)
    ⟨"from ".toList ++ m ++ " impor".toList, 't', by simp, by decide⟩
  have e2 : 'f' :: ("rom ".toList ++ m ++ " import".toList) ++ t1 =
      "from".toList ++ ' ' :: (m ++ " import".toList ++ t1) := by
    simp
  have hs : ∃ f fs, Split (m ++ " import".toList ++ t1) ' ' = f :: fs := by
    cases hsp : Split (m ++ " import".toList ++ t1) ' ' with
    | nil => exact absurd hsp (Split_ne_nil _ _)
    | cons f fs => exact ⟨f, fs, rfl⟩
  obtain ⟨f, fs, hf⟩ := hs
  have hfield : (Split (TrimSpace (w ++ "from ".toList ++ m ++ " import ".toList ++ t)) ' ')[1]?
      = some f := by
    rw [e, ht, e2, Split_append_sep _ _ _ (by decide), hf]
    simp
  unfold fromImport
  simp only [hfield]
  split
  · split
    · exact ⟨_, rfl⟩
    · exact ⟨_, rfl⟩
  · exact ⟨_, rfl⟩

/-! ### The mapping file and `getPkgName` -/

theorem aliasLineOk_spec (p : Str × Str) (h : aliasLineOk p = true) :
    ':' ∉ p.1 ∧ ':' ∉ p.2 ∧ '\n' ∉ p.1 ∧ '\n' ∉ p.2 ∧
      TrimSpace (p.1 ++ ':' :: p.2) = p.1 ++ ':' :: p.2 := by
  simp only [aliasLineOk, Bool.and_eq_true, Bool.not_eq_true', beq_iff_eq] at h
  obtain ⟨⟨⟨⟨h1, h2⟩, h3⟩, h4⟩, h5⟩ := h
  refine ⟨?_, ?_, ?_, ?_, h5⟩
  · intro m; rw [(Contains_iff p.1 ':').mpr m] at h1; cases h1
  · intro m; rw [(Contains_iff p.2 ':').mpr m] at h2; cases h2
  · intro m; rw [(Contains_iff p.1 '\n').mpr m] at h3; cases h3
  · intro m; rw [(Contains_iff p.2 '\n').mpr m] at h4; cases h4

theorem Split_mappingText (entries : List (Str × Str))
    (h : ∀ p ∈ entries, aliasLineOk p = true) :
    Split (mappingText entries) '\n' =
      entries.map (fun (p : Str × Str) => p.1 ++ ':' :: p.2) ++ [[]] := by
  induction entries with
  | nil => rfl
  | cons p ps ih =>
    obtain ⟨_, _, h3, h4, _⟩ := aliasLineOk_spec p (h p (List.mem_cons_self _ _))
    have e : mappingText (p :: ps) = (p.1 ++ ':' :: p.2) ++ '\n' :: mappingText ps := by
      simp [mappingText]
    have hn : '\n' ∉ p.1 ++ ':' :: p.2 := by
      intro m
      rcases List.mem_append.mp m with m | m
      · exact h3 m
      · rcases List.mem_cons.mp m with m | m
        · revert m; decide
        · exact h4 m
    rw [e, Split_append_sep _ _ _ hn, ih (fun q hq => h q (List.mem_cons_of_mem _ hq))]
    rfl

theorem foldl_aliases (entries : List (Str × Str))
    (h : ∀ p ∈ entries, aliasLineOk p = true) (acc : List (Str × Str)) :
    (entries.map (fun (p : Str × Str) => p.1 ++ ':' :: p.2) ++ [[]]).foldl
      (fun dict line =>
        match Split (TrimSpace line) ':' with
        | [k, v] => (k, v) :: dict
        | _ => dict)
      acc = entries.reverse ++ acc := by
  induction entries generalizing acc with
  | nil => rfl
  | cons p ps ih =>
    obtain ⟨h1, h2, _, _, h5⟩ := aliasLineOk_spec p (h p (List.mem_cons_self _ _))
    have hs : Split (TrimSpace (p.1 ++ ':' :: p.2)) ':' = [p.1, p.2] := by
      rw [h5, Split_append_sep _ _ _ h1, Split_of_not_mem _ _ h2]
    simp only [List.map_cons, List.cons_append, List.foldl_cons, hs]
    rw [ih (fun q hq => h q (List.mem_cons_of_mem _ hq))]
    simp

/-- The dictionary read from a mapping file of well-formed lines: its entries, the last line
first. -/
theorem parseMapping_mappingText (entries : List (Str × Str))
    (h : ∀ p ∈ entries, aliasLineOk p = true) :
    parseMapping (mappingText entries) = entries.reverse := by
  unfold parseMapping
  rw [Split_mappingText entries h, foldl_aliases entries h []]
  simp

theorem lookup_of_not_mem (l : List (Str × Str)) (k : Str) (h : k ∉ l.map Prod.fst) :
    l.lookup k = none := by
  induction l with
  | nil => rfl
  | cons p ps ih =>
    obtain ⟨a, b⟩ := p
    simp only [List.map_cons, List.mem_cons, not_or] at h
    have hka : (k == a) = false := by simpa using h.1
    simp only [List.lookup, hka]
    exact ih h.2

theorem lookup_of_mem_nodup (l : List (Str × Str)) (k v : Str)
    (hn : (l.map Prod.fst).Nodup) (hm : (k, v) ∈ l) : l.lookup k = some v := by
  induction l with
  | nil => cases hm
  | cons p ps ih =>
    obtain ⟨a, b⟩ := p
    simp only [List.map_cons, List.nodup_cons] at hn
    rcases List.mem_cons.mp hm with e | m
    · injection e with e1 e2
      subst e1 e2
      simp [List.lookup]
    · have hka : (k == a) = false := by
        have : k ≠ a := by
          intro e
          subst e
          exact hn.1 (List.mem_map.mpr ⟨(k, v), m, rfl⟩)
        simpa using this
      simp only [List.lookup, hka]
      exact ih hn.2 m

theorem pkgNames_index (dict : List (Str × Str)) (importList : List Str)
    (h : tensorflow ∉ importList) (i : Nat) (hi : i < importList.length) :
    (∀ v, dict.lookup (importList.get ⟨i, hi⟩) = some v →
      (pkgNames dict importList)[i]? = some v) ∧
    (dict.lookup (importList.get ⟨i, hi⟩) = none →
      (pkgNames dict importList)[i]? = some (importList.get ⟨i, hi⟩)) := by
  rw [pkgNames_eq_map dict importList h]
  refine ⟨fun v hv => ?_, fun hn => ?_⟩
  · have hv2 : dict.lookup importList[i] = some v := hv
    simp [List.getElem?_map, List.getElem?_eq_getElem hi, aliasOf, hv2]
  · have hn2 : dict.lookup importList[i] = none := hn
    simp [List.getElem?_map, List.getElem?_eq_getElem hi, aliasOf, hn2]

/-- C5: for every candidate list without `tensorflow` and every alias table, the output of
`getPkgName` has the length of the input, its i-th element is the table entry of the i-th
input name when there is one and the i-th input name otherwise.  The table is the one read
from the mapping file: for a file of lines `key:value` it holds exactly these entries, a
later line overriding an earlier one, so a name that is a key is replaced by the value of
its line and a name that is no key is kept; the table of an unavailable mapping file is
empty, and with it the output is the input. -/
theorem getPkgName_alias_mapping (importList : List Str) (h : tensorflow ∉ importList) :
    (∀ dict : List (Str × Str),
      (pkgNames dict importList).length = importList.length ∧
      ∀ (i : Nat) (hi : i < importList.length),
        (∀ v, dict.lookup (importList.get ⟨i, hi⟩) = some v →
          (pkgNames dict importList)[i]? = some v) ∧
        (dict.lookup (importList.get ⟨i, hi⟩) = none →
          (pkgNames dict importList)[i]? = some (importList.get ⟨i, hi⟩))) ∧
    (∀ mappingCon : Str,
      getPkgName mappingCon importList = pkgNames (parseMapping mappingCon) importList) ∧
    parseMapping [] = [] ∧
    getPkgName [] importList = importList ∧
    (∀ mappingCon : Str,
      (getPkgName mappingCon importList).length = importList.length ∧
      ∀ (i : Nat) (hi : i < importList.length),
        (∀ v, (parseMapping mappingCon).lookup (importList.get ⟨i, hi⟩) = some v →
          (getPkgName mappingCon importList)[i]? = some v) ∧
        ((parseMapping mappingCon).lookup (importList.get ⟨i, hi⟩) = none →
          (getPkgName mappingCon importList)[i]? = some (importList.get ⟨i, hi⟩))) ∧
    (∀ entries : List (Str × Str), (∀ p ∈ entries, aliasLineOk p = true) →
      parseMapping (mappingText entries) = entries.reverse ∧
      (getPkgName (mappingText entries) importList).length = importList.length ∧
      ∀ (i : Nat) (hi : i < importList.length),
        (∀ v, entries.reverse.lookup (importList.get ⟨i, hi⟩) = some v →
          (getPkgName (mappingText entries) importList)[i]? = some v) ∧
        (importList.get ⟨i, hi⟩ ∉ entries.map Prod.fst →
          (getPkgName (mappingText entries) importList)[i]? =
            some (importList.get ⟨i, hi⟩)) ∧
        (∀ v, (entries.map Prod.fst).Nodup → (importList.get ⟨i, hi⟩, v) ∈ entries →
          (getPkgName (mappingText entries) importList)[i]? = some v)) := by
  have hlen : ∀ dict : List (Str × Str),
      (pkgNames dict importList).length = importList.length := by
    intro dict
    rw [pkgNames_eq_map dict importList h]
    simp
  refine ⟨fun dict => ⟨hlen dict, pkgNames_index dict importList h⟩, fun _ => rfl, rfl, ?_,
    fun mappingCon => ⟨hlen _, pkgNames_index _ importList h⟩, ?_⟩
  · show pkgNames [] importList = importList
    rw [pkgNames_eq_map [] importList h]
    have e : aliasOf ([] : List (Str × Str)) = id := funext aliasOf_nil
    rw [e, List.map_id]
  · intro entries hok
    have hp := parseMapping_mappingText entries hok
    have hg : getPkgName (mappingText entries) importList =
        pkgNames entries.reverse importList := by
      show pkgNames (parseMapping (mappingText entries)) importList = _
      rw [hp]
    refine ⟨hp, hlen _, fun i hi => ?_⟩
    have hidx := pkgNames_index entries.reverse importList h i hi
    rw [hg]
    refine ⟨hidx.1, fun hk => ?_, fun v hn hm => ?_⟩
    · apply hidx.2
      apply lookup_of_not_mem
      rw [List.map_reverse]
      exact fun m => hk (List.mem_reverse.mp m)
    · apply hidx.1
      apply lookup_of_mem_nodup
      · rw [List.map_reverse]
        exact List.nodup_reverse.mpr hn
      · exact List.mem_reverse.mpr hm

theorem getPkgName_alias_mapping_witness :
    tensorflow ∉ ["PIL".toList, "flask".toList, "yaml".toList] ∧
    mappingText twoAliases = "PIL:Pillow\nyaml:PyYAML\n".toList ∧
    parseMapping (mappingText twoAliases) = twoAliases.reverse ∧
    (getPkgName (mappingText twoAliases)
      ["PIL".toList, "flask".toList, "yaml".toList])[0]? = some "Pillow".toList ∧
    (getPkgName (mappingText twoAliases)
      ["PIL".toList, "flask".toList, "yaml".toList])[1]? = some "flask".toList ∧
    getPkgName "PIL:Pillow\nyaml:PyYAML\n".toList
      ["PIL".toList, "flask".toList, "yaml".toList] =
        ["Pillow".toList, "flask".toList, "PyYAML".toList] :=
  ⟨by decide, by decide,
   ((getPkgName_alias_mapping ["PIL".toList, "flask".toList, "yaml".toList]
      (by decide)).2.2.2.2.2 twoAliases (by decide)).1,
   (((getPkgName_alias_mapping ["PIL".toList, "flask".toList, "yaml".toList]
      (by decide)).2.2.2.2.2 twoAliases (by decide)).2.2 0 (by decide)).2.2
        "Pillow".toList (by decide) (by decide),
   (((getPkgName_alias_mapping ["PIL".toList, "flask".toList, "yaml".toList]
      (by decide)).2.2.2.2.2 twoAliases (by decide)).2.2 1 (by decide)).2.1 (by decide),
   by decide⟩

/-! ### The resolver -/

theorem wrapInt32_le (x : Int) (h : -2147483648 ≤ x) : wrapInt32 x ≤ x := by
  unfold wrapInt32
  omega

theorem wrapInt32_ge (x : Int) : -2147483648 ≤ wrapInt32 x := by
  unfold wrapInt32
  omega

theorem pending_set_emit (tasks : List (Option Effect)) (i : Nat) (r : Str)
    (h : tasks[i]? = some (some (.emit r))) :
    (pendingEmits tasks).Perm (pendingEmits (tasks.set i none) ++ [r]) ∧
    pendingFails (tasks.set i none) = pendingFails tasks := by
  induction tasks generalizing i with
  | nil => simp at h
  | cons t ts ih =>
    cases i with
    | zero =>
      simp only [List.getElem?_cons_zero, Option.some.injEq] at h
      subst h
      simp only [List.set_cons_zero, pendingEmits, pendingFails, and_true]
      exact List.perm_append_singleton r _ |>.symm
    | succ j =>
      simp only [List.getElem?_cons_succ] at h
      obtain ⟨h1, h2⟩ := ih j h
      simp only [List.set_cons_succ]
      match t with
      | none => exact ⟨by simpa [pendingEmits] using h1, by simpa [pendingFails] using h2⟩
      | some (.emit q) =>
        exact ⟨by simpa [pendingEmits] using h1, by simpa [pendingFails] using h2⟩
      | some .fail => exact ⟨by simpa [pendingEmits] using h1, by simpa [pendingFails] using h2⟩
      | some (.crash f) =>
        exact ⟨by simpa [pendingEmits] using h1, by simpa [pendingFails] using h2⟩

theorem pending_set_fail (tasks : List (Option Effect)) (i : Nat)
    (h : tasks[i]? = some (some .fail)) :
    pendingEmits (tasks.set i none) = pendingEmits tasks ∧
    pendingFails tasks = pendingFails (tasks.set i none) + 1 := by
  induction tasks generalizing i with
  | nil => simp at h
  | cons t ts ih =>
    cases i with
    | zero =>
      simp only [List.getElem?_cons_zero, Option.some.injEq] at h
      subst h
      simp [pendingEmits, pendingFails]
    | succ j =>
      simp only [List.getElem?_cons_succ] at h
      obtain ⟨h1, h2⟩ := ih j h
      simp only [List.set_cons_succ]
      match t with
      | none => exact ⟨by simpa [pendingEmits] using h1, by simpa [pendingFails] using h2⟩
      | some (.emit q) =>
        exact ⟨by simpa [pendingEmits] using h1, by simpa [pendingFails] using h2⟩
      | some .fail => exact ⟨by simpa [pendingEmits] using h1, by simpa [pendingFails] using h2⟩
      | some (.crash f) =>
        exact ⟨by simpa [pendingEmits] using h1, by simpa [pendingFails] using h2⟩

theorem NoCrash.set_none {tasks : List (Option Effect)} (h : NoCrash tasks) (i : Nat) :
    NoCrash (tasks.set i none) := by
  intro t ht f e
  rcases List.mem_or_eq_of_mem_set ht with h1 | h1
  · exact h t h1 f e
  · rw [h1] at e; cases e

theorem all_settled (tasks : List (Option Effect)) (hc : NoCrash tasks)
    (he : pendingEmits tasks = []) (hf : pendingFails tasks = 0) : ∀ t ∈ tasks, t = none := by
  induction tasks with
  | nil => simp
  | cons t ts ih =>
    have hts : NoCrash ts := fun u hu => hc u (List.mem_cons_of_mem _ hu)
    match t, hc t (List.mem_cons_self _ _) with
    | none, _ =>
      intro u hu
      rcases List.mem_cons.mp hu with h | h
      · exact h
      · exact ih hts (by simpa [pendingEmits] using he) (by simpa [pendingFails] using hf) u h
    | some (.emit q), _ => simp [pendingEmits] at he
    | some .fail, _ => simp [pendingFails] at hf
    | some (.crash f), h => exact absurd rfl (h f)

theorem Inv.step {expected : List Str} {failures n : Nat} {s : Resolver}
    (hn : expected.length + failures = n) (h : Inv expected failures s) (a : Action) :
    Inv expected failures (step n s a) := by
  have hal := h.alive
  cases a with
  | task i =>
    simp only [Pyreqs.step, hal, Bool.false_eq_true, if_false]
    split
    · next r ht =>
      split
      · obtain ⟨hp, hf⟩ := pending_set_emit s.tasks i r ht
        have hlen : (pendingEmits s.tasks).length =
            (pendingEmits (s.tasks.set i none)).length + 1 := by
          simpa using hp.length_eq
        refine ⟨?_, ?_, h.badGe, h.noCrash.set_none i, rfl, ?_⟩
        · refine List.Perm.trans ?_ h.perm
          simp only [List.append_assoc]
          refine List.Perm.append_left _ (List.Perm.append_left _ ?_)
          exact (List.perm_append_comm.trans hp.symm)
        · simpa [hf] using h.badLe
        · intro hd
          have := (h.atDone hd).2.1
          rw [this] at hlen
          simp at hlen
      · exact h
    · next ht =>
      obtain ⟨hp, hf⟩ := pending_set_fail s.tasks i ht
      refine ⟨?_, ?_, wrapInt32_ge _, h.noCrash.set_none i, rfl, ?_⟩
      · simpa [hp] using h.perm
      · have h1 := h.badLe
        have h2 := wrapInt32_le (s.badNum + 1) (by have := h.badGe; omega)
        show wrapInt32 (s.badNum + 1) + (pendingFails (s.tasks.set i none) : Int) ≤ _
        rw [hf] at h1
        push_cast at h1
        omega
      · intro hd
        have := (h.atDone hd).2.2
        omega
    · next f ht =>
      exact absurd rfl (h.noCrash _ (List.getElem?_mem ht) f)
    · exact h
  | loop =>
    simp only [Pyreqs.step, hal, Bool.false_eq_true, if_false]
    split
    · next hl =>
      split
      · next r rest hch =>
        refine ⟨?_, h.badLe, h.badGe, h.noCrash, rfl, ?_⟩
        · have := h.perm
          rw [hch] at this
          simpa using this
        · intro hd
          rw [hl] at hd
          cases hd
      · next hch =>
        refine ⟨h.perm, h.badLe, h.badGe, h.noCrash, rfl, ?_⟩
        intro hd
        cases hd
    · next hl =>
      split
      · next hq =>
        refine ⟨h.perm, h.badLe, h.badGe, h.noCrash, rfl, fun _ => ?_⟩
        have hp := h.perm.length_eq
        simp only [List.length_append] at hp
        have hb := h.badLe
        have hn2 : ((expected.length : Int) + (failures : Int)) = (n : Int) := by
          exact_mod_cast hn
        have hr : (s.requirements.length : Int) + (s.resultCh.length : Int) +
            ((pendingEmits s.tasks).length : Int) = (expected.length : Int) := by
          exact_mod_cast hp
        have hpf : (0 : Int) ≤ (pendingFails s.tasks : Int) := Int.ofNat_nonneg _
        have hc0 : (0 : Int) ≤ (s.resultCh.length : Int) := Int.ofNat_nonneg _
        have he0 : (0 : Int) ≤ ((pendingEmits s.tasks).length : Int) := Int.ofNat_nonneg _
        have z1 : (s.resultCh.length : Int) = 0 := by omega
        have z2 : ((pendingEmits s.tasks).length : Int) = 0 := by omega
        have z3 : (pendingFails s.tasks : Int) = 0 := by omega
        refine ⟨List.length_eq_zero.mp (by exact_mod_cast z1),
          List.length_eq_zero.mp (by exact_mod_cast z2), by exact_mod_cast z3⟩
      · refine ⟨h.perm, h.badLe, h.badGe, h.noCrash, rfl, ?_⟩
        intro hd
        cases hd
    · exact h

theorem Inv.exec {expected : List Str} {failures n : Nat}
    (hn : expected.length + failures = n) (schedule : List Action) (s : Resolver)
    (h : Inv expected failures s) : Inv expected failures (exec n schedule s) := by
  induction schedule generalizing s with
  | nil => exact h
  | cons a as ih => exact ih _ (h.step hn a)

theorem start_cons (infoVersion : Str → Str) (p : Str × Reply) (ps : List (Str × Reply)) :
    (start infoVersion (p :: ps)).tasks =
      some (lookupTask infoVersion p.1 p.2) :: (start infoVersion ps).tasks := rfl

theorem start_tasks (infoVersion : Str → Str) (lookups : List (Str × Reply))
    (hrep : ∀ p ∈ lookups, ∃ body, p.2 = .response 200 body ∨ p.2 = .response 404 body) :
    pendingEmits (start infoVersion lookups).tasks = expectedRequirements infoVersion lookups ∧
    NoCrash (start infoVersion lookups).tasks ∧
    (expectedRequirements infoVersion lookups).length +
      pendingFails (start infoVersion lookups).tasks = lookups.length := by
  induction lookups with
  | nil =>
    refine ⟨rfl, ?_, rfl⟩
    intro t ht
    cases ht
  | cons p ps ih =>
    obtain ⟨h1, h2, h3⟩ := ih (fun q hq => hrep q (List.mem_cons_of_mem _ hq))
    obtain ⟨item, reply⟩ := p
    obtain ⟨body, hb⟩ := hrep (item, reply) (List.mem_cons_self _ _)
    rw [start_cons]
    rcases hb with hb | hb
    · simp only at hb
      subst hb
      have e1 : lookupTask infoVersion item (.response 200 body) =
          .emit (item ++ "==".toList ++ infoVersion body) := by
        simp [lookupTask]
      have e2 : expectedRequirements infoVersion ((item, .response 200 body) :: ps) =
          (item ++ "==".toList ++ infoVersion body) :: expectedRequirements infoVersion ps := by
        simp [expectedRequirements]
      rw [e1, e2]
      refine ⟨by rw [pendingEmits, h1], ?_, ?_⟩
      · intro t ht f e
        rcases List.mem_cons.mp ht with h | h
        · rw [h] at e; cases e
        · exact h2 t h f e
      · rw [pendingFails, List.length_cons, List.length_cons]
        · omega
        · intro e
          cases e
    · simp only at hb
      subst hb
      have e1 : lookupTask infoVersion item (.response 404 body) = .fail := by
        simp [lookupTask]
      have e2 : expectedRequirements infoVersion ((item, .response 404 body) :: ps) =
          expectedRequirements infoVersion ps := by
        simp [expectedRequirements]
      rw [e1, e2]
      refine ⟨?_, ?_, ?_⟩
      · rw [pendingEmits, h1]
        intro r e
        cases e
      · intro t ht f e
        rcases List.mem_cons.mp ht with h | h
        · rw [h] at e; cases e
        · exact h2 t h f e
      · rw [pendingFails, List.length_cons]
        omega

theorem answered_spec (p : Str × Reply) (h : answered p = true) :
    ∃ body, p.2 = .response 200 body ∨ p.2 = .response 404 body := by
  obtain ⟨item, reply⟩ := p
  cases reply with
  | transportError => simp [answered] at h
  | response status body =>
    simp only [answered, Bool.or_eq_true, beq_iff_eq] at h
    rcases h with h | h
    · exact ⟨body, Or.inl (by rw [h])⟩
    · exact ⟨body, Or.inr (by rw [h])⟩

theorem expectedRequirements_length (infoVersion : Str → Str)
    (lookups : List (Str × Reply)) :
    (expectedRequirements infoVersion lookups).length = lookups.countP confirmed := by
  induction lookups with
  | nil => rfl
  | cons p ps ih =>
    obtain ⟨item, reply⟩ := p
    cases reply with
    | transportError => simp [expectedRequirements, confirmed, ih]
    | response status body =>
      by_cases hs : status = 200
      · simp [expectedRequirements, confirmed, hs, ih]
      · simp [expectedRequirements, confirmed, hs, ih]


theorem wrapInt32_id (x : Int) (h1 : -2147483648 ≤ x) (h2 : x < 2147483648) :
    wrapInt32 x = x := by
  unfold wrapInt32
  omega

theorem getElem?_replicate_append (k : Nat) (t : Option Effect) (ts : List (Option Effect)) :
    (List.replicate k (none : Option Effect) ++ t :: ts)[k]? = some t := by
  induction k with
  | zero => simp
  | succ j ih => simpa [List.replicate_succ] using ih

theorem set_replicate_append (k : Nat) (t : Option Effect) (ts : List (Option Effect)) :
    (List.replicate k (none : Option Effect) ++ t :: ts).set k none =
      List.replicate (k + 1) none ++ ts := by
  induction k with
  | zero => simp
  | succ j ih =>
    rw [List.replicate_succ, List.cons_append, List.set_cons_succ, ih]
    rfl

/-- Run in turn, the goroutines settle one by one and the loop is left with every
requirement received. -/
theorem exec_inTurn (n : Nat) (ts : List (Option Effect)) (k : Nat) (s : Resolver)
    (htasks : s.tasks = List.replicate k none ++ ts) (hch : s.resultCh = [])
    (hloc : s.loc = .select) (hal : s.crashed = false) (hnc : NoCrash ts)
    (hb0 : 0 ≤ s.badNum) (hb1 : s.badNum + (pendingFails ts : Int) < 2147483648)
    (hfin : ((s.requirements.length + (pendingEmits ts).length : Nat) : Int) =
      (n : Int) - (s.badNum + (pendingFails ts : Int))) :
    (exec n (inTurn k ts) s).loc = .done ∧ (exec n (inTurn k ts) s).crashed = false ∧
    (exec n (inTurn k ts) s).requirements = s.requirements ++ pendingEmits ts := by
  induction ts generalizing k s with
  | nil =>
    simp only [pendingEmits, pendingFails, List.length_nil, Nat.add_zero, Nat.cast_zero,
      Int.add_zero] at hfin
    simp [inTurn, exec, step, hal, hloc, hch, hfin, pendingEmits]
  | cons t ts ih =>
    have hts : NoCrash ts := fun u hu => hnc u (List.mem_cons_of_mem _ hu)
    have hget : s.tasks[k]? = some t := by
      rw [htasks]; exact getElem?_replicate_append k t ts
    have hset : s.tasks.set k none = List.replicate (k + 1) none ++ ts := by
      rw [htasks]; exact set_replicate_append k t ts
    match t, hnc t (List.mem_cons_self _ _), hget with
    | none, _, hget =>
      have e1 : step n s (.task k) = s := by
        simp [step, hal, hget]
      have hrep : s.tasks = List.replicate (k + 1) none ++ ts := by
        rw [htasks, List.replicate_succ']
        simp
      have := ih (k + 1) s hrep hch hloc hal hts hb0
        (by simpa [pendingFails] using hb1) (by simpa [pendingEmits, pendingFails] using hfin)
      simpa [inTurn, exec, e1, pendingEmits] using this
    | some (.emit r), _, hget =>
      have e1 : step n (step n s (.task k)) .loop =
          { s with tasks := List.replicate (k + 1) none ++ ts,
                   requirements := s.requirements ++ [r] } := by
        simp [step, hal, hget, hch, hloc, capacity, hset]
      have := ih (k + 1)
        { s with tasks := List.replicate (k + 1) none ++ ts,
                 requirements := s.requirements ++ [r] }
        rfl hch hloc hal hts hb0 (by simpa [pendingFails] using hb1)
        (by
          simp only [pendingEmits, pendingFails, List.length_cons] at hfin
          simp only [List.length_append, List.length_singleton]
          rw [← hfin]
          push_cast
          omega)
      simpa [inTurn, exec, e1, pendingEmits] using this
    | some .fail, _, hget =>
      simp only [pendingFails, Nat.cast_add, Nat.cast_one] at hb1
      have hw : wrapInt32 (s.badNum + 1) = s.badNum + 1 :=
        wrapInt32_id _ (by omega) (by have := Int.ofNat_nonneg (pendingFails ts); omega)
      have e1 : step n s (.task k) =
          { s with tasks := List.replicate (k + 1) none ++ ts, badNum := s.badNum + 1 } := by
        simp [step, hal, hget, hset, hw]
      have := ih (k + 1)
        { s with tasks := List.replicate (k + 1) none ++ ts, badNum := s.badNum + 1 }
        rfl hch hloc hal hts (by show 0 ≤ s.badNum + 1; omega)
        (by show s.badNum + 1 + (pendingFails ts : Int) < 2147483648; omega)
        (by
          simp only [pendingEmits, pendingFails, Nat.cast_add, Nat.cast_one] at hfin
          show ((s.requirements.length + (pendingEmits ts).length : Nat) : Int) =
            (n : Int) - (s.badNum + 1 + (pendingFails ts : Int))
          push_cast
          omega)
      simpa [inTurn, exec, e1, pendingEmits] using this
    | some (.crash f), h, _ => exact absurd rfl (h f)

/-- C9: when every candidate is answered with status 200 or 404, then along every schedule
of the lookup goroutines and the aggregating loop, once `GetRequirementsLocal` has left the
loop and returned a list, every lookup has settled and the list is a rearrangement of the
strings `name==version` of the candidates answered with 200, so it has exactly as many
entries as there are such candidates; and for fewer than 2^31 candidates there is a schedule
along which the function does return. -/
theorem GetRequirementsLocal_result (infoVersion : Str → Str)
    (lookups : List (Str × Reply)) (hrep : ∀ p ∈ lookups, answered p = true) :
    (∀ (schedule : List Action) (reqs : List Str),
      GetRequirementsLocal infoVersion lookups schedule = some reqs →
      (∀ t ∈ (exec lookups.length schedule (start infoVersion lookups)).tasks, t = none) ∧
      reqs.Perm (expectedRequirements infoVersion lookups) ∧
      reqs.length = lookups.countP confirmed) ∧
    (lookups.length < 2147483648 →
      ∃ schedule : List Action,
        GetRequirementsLocal infoVersion lookups schedule =
          some (expectedRequirements infoVersion lookups)) := by
  obtain ⟨h1, h2, h3⟩ := start_tasks infoVersion lookups
    (fun p hp => answered_spec p (hrep p hp))
  constructor
  · intro schedule reqs hret
    have h0 : Inv (expectedRequirements infoVersion lookups)
        (pendingFails (start infoVersion lookups).tasks) (start infoVersion lookups) := by
      refine ⟨?_, ?_, ?_, h2, rfl, ?_⟩
      · rw [h1]
        exact List.Perm.refl _
      · simp [start]
      · simp [start]
      · intro hd
        cases hd
    have hI := Inv.exec h3 schedule _ h0
    unfold GetRequirementsLocal at hret
    simp only at hret
    split at hret
    · next hd =>
      injection hret with hret
      obtain ⟨z1, z2, z3⟩ := hI.atDone hd.1
      have hp := hI.perm
      rw [z1, z2, hret] at hp
      simp only [List.append_nil] at hp
      exact ⟨all_settled _ hI.noCrash z2 z3, hp,
        hp.length_eq.trans (expectedRequirements_length _ _)⟩
    · cases hret
  · intro hlen
    refine ⟨inTurn 0 (start infoVersion lookups).tasks, ?_⟩
    have hrun := exec_inTurn lookups.length (start infoVersion lookups).tasks 0
      (start infoVersion lookups) rfl rfl rfl rfl h2 (le_refl _)
      (by
        show (0 : Int) + (pendingFails (start infoVersion lookups).tasks : Int) < 2147483648
        omega)
      (by
        show (((0 : Nat) + (pendingEmits (start infoVersion lookups).tasks).length : Nat) : Int)
          = (lookups.length : Int) -
            ((0 : Int) + (pendingFails (start infoVersion lookups).tasks : Int))
        rw [h1]
        omega)
    obtain ⟨r1, r2, r3⟩ := hrun
    unfold GetRequirementsLocal
    simp only [r1, r2, r3, and_self, if_true, h1]
    rfl

theorem GetRequirementsLocal_result_witness :
    GetRequirementsLocal id threeLookups
        [.task 2, .task 1, .loop, .task 0, .loop, .loop, .loop] =
      some ["c==2".toList, "a==1.0".toList] ∧
    ["c==2".toList, "a==1.0".toList].Perm (expectedRequirements id threeLookups) ∧
    ["c==2".toList, "a==1.0".toList].length = threeLookups.countP confirmed :=
  ⟨by decide,
   ((GetRequirementsLocal_result id threeLookups (by decide)).1
      [.task 2, .task 1, .loop, .task 0, .loop, .loop, .loop]
      ["c==2".toList, "a==1.0".toList] (by decide)).2⟩

end Pyreqs
